import Mathlib

/-!
Shallow embedding of the core of `diffcode.py` (the diff-stream parser and
the paginated layout engine) together with theorems settling the frozen
claims about it.

Conventions of the embedding:
* Python ints are `Int`/`Nat`; the floating-point page geometry is modelled
  with exact rationals `Q` (unreduced integer fractions with comparison by
  cross-multiplication, so every coordinate computation evaluates inside the
  kernel; the code only adds, subtracts, multiplies and compares coordinates
  built from configuration values, so the exact-arithmetic model is the
  intended reading).
* Python strings are modelled as `List Char` (named `Str`), so that every
  operation is structurally recursive and evaluates inside the kernel.
* Fallible Python code (assertions, `KeyError`, `NameError`, `IndexError`,
  fatal parse errors) is modelled with `Option`.
* The file system consulted by the whole-file-insert path is an explicit
  parameter `Fs`; the content a file decodes to (with replacement
  characters) is given directly.
-/

namespace Diffcode

/-- Python strings, as character lists. -/
abbrev Str := List Char

/-- `a.startswith(b)`. -/
def sw (pre s : Str) : Bool := List.isPrefixOf pre s

/-- `a.endswith(b)`. -/
def ew (suf s : Str) : Bool := List.isSuffixOf suf s

/-- `s.split(sep)` for a one-character separator. -/
def splitOnCh (sep : Char) : Str → List Str
  | [] => [[]]
  | c :: rest =>
    let r := splitOnCh sep rest
    if c = sep then [] :: r
    else
      match r with
      | [] => [[c]]
      | h :: t => (c :: h) :: t

/-- Whitespace split keeping empty pieces (helper for `pysplit`). -/
def splitWsRaw : Str → List Str
  | [] => [[]]
  | c :: rest =>
    let r := splitWsRaw rest
    if c.isWhitespace then [] :: r
    else
      match r with
      | [] => [[c]]
      | h :: t => (c :: h) :: t

/-- Python `str.split()` (whitespace, no empties). -/
def pysplit (s : Str) : List Str := (splitWsRaw s).filter (fun t => t ≠ [])

/-- `s.lstrip()`. -/
def trimL (s : Str) : Str := s.dropWhile Char.isWhitespace

/-- `s.rstrip()`. -/
def trimR (s : Str) : Str := (s.reverse.dropWhile Char.isWhitespace).reverse

/-- `s.strip()`. -/
def trimWs (s : Str) : Str := trimL (trimR s)

/-- `sep.join(parts)` for a one-character separator. -/
def interc (sep : Char) : List Str → Str
  | [] => []
  | [x] => x
  | x :: xs => x ++ sep :: interc sep xs

/-- Lexicographic (code-point) string order, Python `<=` on str. -/
def strLe : Str → Str → Bool
  | [], _ => true
  | _ :: _, [] => false
  | a :: as, b :: bs => if a = b then strLe as bs else decide (a.toNat < b.toNat)

/-- The seven change-record kinds (`ChangeType` enum in diffcode.py). -/
inductive ChangeType where
  | NEW_CHUNK
  | INSERTED
  | DELETED
  | CONTEXT
  | ADDED_FILE
  | REMOVED_FILE
  | DIFFERING_BINARY
deriving DecidableEq, Repr

/-- The `content` field of a `ChangeInfo`: literal line text / file path, or
the pair of underlying filesystem paths attached to a `NEW_CHUNK`. -/
inductive Content where
  | text (s : Str)
  | pair (a b : Str)
deriving DecidableEq, Repr

/-- The `ChangeInfo` namedtuple of diffcode.py. -/
structure ChangeInfo where
  type : ChangeType
  line1 : Int
  line2 : Int
  content : Content
deriving DecidableEq, Repr

/-- The Python dict `changeset`, as an association list in insertion order.
The parser only adds keys it has checked to be fresh, so keys are unique in
every parser-produced value. -/
abbrev ChangeSet := List (Str × List ChangeInfo)

/-- The key list of a change set (`changeset.keys()`). -/
def csKeys (cs : ChangeSet) : List Str := cs.map Prod.fst

/-- `fname in changeset`. -/
def csMember (f : Str) (cs : ChangeSet) : Bool := decide (f ∈ csKeys cs)

/-- `changeset[f].append(r)` (for `f` already present). -/
def csAppend (cs : ChangeSet) (f : Str) (r : ChangeInfo) : ChangeSet :=
  cs.map (fun p => if p.1 = f then (p.1, p.2 ++ [r]) else p)

/-- `changeset[f]`, defaulting to the empty record list. -/
def csGet (cs : ChangeSet) (f : Str) : List ChangeInfo :=
  ((cs.find? (fun p => p.1 = f)).map Prod.snd).getD []

/-- File-system model for the whole-file-insert path: a path names a plain
file with its decoded content, or a directory whose recursively walked files
are listed as (path, content) pairs in `os.walk` order, or nothing. -/
inductive FsNode where
  | file (content : Str)
  | dir (entries : List (Str × Str))
deriving DecidableEq

/-- The file system consulted by `insertedEntireFile`. -/
abbrev Fs := Str → Option FsNode

/-- A character counted as binary by `insertedEntireFile`:
`not (c.isascii() and c.isprintable())`, i.e. outside printable ASCII
0x20..0x7e. -/
def isBinChar (c : Char) : Bool := decide (c.toNat < 32) || decide (126 < c.toNat)

/-- The sentinel content substituted for binary files. -/
def binarySentinel : Str := "This file contains binary data".toList

/-- The binary test of the source on the decoded data of a file: of the first 100
characters, at least half are non-printable/non-ASCII and there is at least
one of them (`totalChars > 0 and numBin / totalChars >= 0.5`). -/
def halfBinary (data : Str) : Bool :=
  let first100 := data.take 100
  decide (0 < first100.length) &&
    decide (first100.length ≤ 2 * (first100.filter isBinChar).length)

/-- Records produced by `insertedEntireFile` for one regular file: an
`ADDED_FILE` marker followed by one `INSERTED` record per line of the data,
the data being replaced by the binary sentinel when `halfBinary` holds. -/
def addedFileRecords (fname data : Str) : List ChangeInfo :=
  let data' := if halfBinary data then binarySentinel else data
  ChangeInfo.mk .ADDED_FILE 1 1 (.text fname) ::
    (splitOnCh '\n' data').enum.map
      (fun p => ChangeInfo.mk .INSERTED 1 ((p.1 : Int) + 1) (.text p.2))

/-- `insertedEntireFile(fname, changeset)`: the directory case walks the
listed files; each regular file asserts freshness of its key and appends its
records. -/
def insertedEntireFile (fs : Fs) (fname : Str) (cs : ChangeSet) :
    Option ChangeSet :=
  match fs fname with
  | some (.dir entries) =>
      entries.foldlM
        (fun acc e =>
          if csMember e.1 acc then none
          else some (acc ++ [(e.1, addedFileRecords e.1 e.2)]))
        cs
  | some (.file data) =>
      if csMember fname cs then none
      else some (cs ++ [(fname, addedFileRecords fname data)])
  | none => none

/-- Digits of a token folded into a number; `none` when empty or when a
non-digit occurs. -/
def digitsToNat (l : Str) : Option Nat :=
  if l.isEmpty then none
  else l.foldlM
    (fun acc c => if c.isDigit then some (10 * acc + (c.toNat - 48)) else none) 0

/-- Python `int(token)` for the tokens the parser feeds it (optional sign,
then decimal digits). -/
def pyInt (s : Str) : Option Int :=
  match s with
  | '-' :: rest => (digitsToNat rest).map (fun n => -(n : Int))
  | '+' :: rest => (digitsToNat rest).map (fun n => (n : Int))
  | l => (digitsToNat l).map (fun n => (n : Int))

/-- Parse one `@@` spec field (`-L` or `-L,C`, and the `+` forms): the comma
split must have exactly two pieces, the first must carry the expected sign,
its remainder must be an integer; only the start line is kept. -/
def hunkStart (tok : Str) (sign : Char) : Option Int :=
  let l :=
    if tok.contains ',' then
      match splitOnCh ',' tok with
      | [a, _] => some a
      | _ => none
    else some tok
  l.bind (fun t =>
    match t with
    | c :: rest => if c = sign then pyInt rest else none
    | [] => none)

/-- The `Only in DIR: NAME` pattern `^Only in ([^:]+): (.+)`: `DIR` is the
(nonempty) text before the first colon; a space must follow that colon with
at least one further character. -/
def onlyInMatch (line : Str) : Option (Str × Str) :=
  let t := line.drop 8
  match splitOnCh ':' t with
  | [] => none
  | [_] => none
  | g1 :: rest =>
      let after := interc ':' rest
      if g1 = [] then none
      else
        match after with
        | ' ' :: g2 => if g2 = [] then none else some (g1, g2)
        | _ => none

/-- `os.path.join` for the joins the parser performs (second part relative). -/
def pathJoin (a b : Str) : Str :=
  if ew [ '/' ] a then a ++ b else a ++ '/' :: b

/-- First path captured by the greedy `Binary files (.*) and (.*) differ`
pattern: the text between `"Binary files "` and the last `" and "` that
leaves at least `" differ"` (7 characters) after it. -/
def binGroup1 (line : Str) : Option Str :=
  let mid := line.drop 13
  let idxs := (List.range mid.length).filter
    (fun i => (mid.drop i).take 5 = " and ".toList ∧ i + 12 ≤ mid.length)
  (idxs.getLast?).map (fun i => mid.take i)

/-- Mutable locals of the `getDifferences` line loop: the accumulated
changeset, the current file key `fname`, the last header pair
`(fname1, fname2)`, and the running line counters `(lineNum1, lineNum2)`.
`none` models a Python name not yet assigned. -/
structure PState where
  cs : ChangeSet
  fname : Option Str
  fpair : Option (Str × Str)
  ctrs : Option (Int × Int)
  pending : Option Str

/-- Initial parser state. -/
def initPState : PState := ⟨[], none, none, none, none⟩

/-- The `Only in` branch of the dispatch loop: recording a wholly inserted
or wholly removed file.  Returns the updated locals, `none` on any fatal
condition. -/
def stepOnlyIn (dir1 dir2 : Str) (fs : Fs) (line : Str) (st : PState) :
    Option PState :=
  match onlyInMatch line with
  | none => none
  | some (g1, g2) =>
    if sw dir2 g1 then
      match insertedEntireFile fs (pathJoin g1 g2) st.cs with
      | some cs' => some { st with cs := cs', fname := some (pathJoin g1 g2) }
      | none => none
    else if sw dir1 g1 then
      if csMember (pathJoin g1 g2) st.cs then none
      else some
        { st with
            cs := st.cs ++
              [(pathJoin g1 g2,
                [⟨.REMOVED_FILE, -1, -1, .text (pathJoin g1 g2)⟩])],
            fname := some (pathJoin g1 g2) }
    else none

/-- The path recorded from a `---` or `+++` header line: text after the
four-character prefix, stripped, up to the first tab. -/
def hdrPath (line : Str) : Str := (splitOnCh '\t' (trimWs (line.drop 4))).headD []

/-- Completion of a `---`/`+++` header pair (`hline` is the pending `---`
line, `line2` the current line): the second path is the new file identity;
a duplicate identity is fatal. -/
def stepHeader (hline line2 : Str) (st : PState) : Option PState :=
  if sw "+++".toList line2 then
    if csMember (hdrPath line2) st.cs then none
    else some
      { st with cs := st.cs ++ [(hdrPath line2, [])], fname := some (hdrPath line2),
                fpair := some (hdrPath hline, hdrPath line2), pending := none }
  else none

/-- The `@@ ` hunk-header branch: parse both start lines (which must be
positive), emit a `NEW_CHUNK` carrying the last header pair, and reset the
running counters. -/
def stepHunk (line : Str) (st : PState) : Option PState :=
  match pysplit (trimWs (line.drop 2)) with
  | s0 :: s1 :: _ =>
    match hunkStart s0 '-', hunkStart s1 '+' with
    | some l1, some l2 =>
      if 0 < l1 ∧ 0 < l2 then
        match st.fname, st.fpair with
        | some f, some (a, b) =>
          if csMember f st.cs then
            some { st with cs := csAppend st.cs f ⟨.NEW_CHUNK, l1, l2, .pair a b⟩,
                           ctrs := some (l1, l2) }
          else none
        | _, _ => none
      else none
    | _, _ => none
  | _ => none

/-- How the running counters advance for each content-record kind:
`Context` advances both, `Deleted` only `lineNum1`, `Inserted` only
`lineNum2`. -/
def ctrStep (ty : ChangeType) (c1 c2 : Int) : Int × Int :=
  match ty with
  | .CONTEXT => (c1 + 1, c2 + 1)
  | .DELETED => (c1 + 1, c2)
  | _ => (c1, c2 + 1)

/-- The three content-line branches (space / `-` / `+` prefixed), which
differ only in the record kind and in which running counters advance. -/
def stepContent (ty : ChangeType) (line : Str) (st : PState) : Option PState :=
  match st.fname, st.ctrs with
  | some f, some (c1, c2) =>
    if csMember f st.cs then
      some { st with cs := csAppend st.cs f ⟨ty, c1, c2, .text (trimR (line.drop 1))⟩,
                     ctrs := some (ctrStep ty c1 c2) }
    else none
  | _, _ => none

/-- The `Binary files A and B differ` branch: a fresh single-record file
keyed by the first captured path. -/
def stepBinary (line : Str) (st : PState) : Option PState :=
  match binGroup1 line with
  | some f =>
    if csMember f st.cs then none
    else some
      { st with cs := st.cs ++ [(f, [⟨.DIFFERING_BINARY, 0, 0, .text f⟩])],
                fname := some f }
  | none => none

/-- One line of the `getDifferences` dispatch loop, in the dispatch order
of the source.  The source consumes a `---`/`+++` header pair in a single loop
iteration; here the `---` line is held in `pending` and the `+++` line is
required to be the very next line, which is the same state machine one line
at a time.  `none` models any fatal condition (failed assert, unmatched
line, unassigned name, bad index, missing file). -/
def pline (dir1 dir2 : Str) (fs : Fs) (line : Str) (st : PState) : Option PState :=
  match st.pending with
  | some hline => stepHeader hline line st
  | none =>
    if sw "diff ".toList line then some st
    else if sw "Only in ".toList line then stepOnlyIn dir1 dir2 fs line st
    else if sw "---".toList line then some { st with pending := some line }
    else if sw "@@ ".toList line then stepHunk line st
    else if sw " ".toList line then stepContent .CONTEXT line st
    else if sw "-".toList line then stepContent .DELETED line st
    else if sw "+".toList line then stepContent .INSERTED line st
    else if line = "\\ No newline at end of file".toList then some st
    else if sw "Binary files ".toList line ∧ ew " differ".toList line then
      stepBinary line st
    else none

/-- End of input: a dangling `---` header (its `+++` line missing) is the
`IndexError` of the source; otherwise the changeset is returned. -/
def pdone (st : PState) : Option ChangeSet :=
  match st.pending with
  | none => some st.cs
  | some _ => none

/-- The full line loop of `getDifferences`. -/
def pgo (dir1 dir2 : Str) (fs : Fs) : List Str → PState → Option ChangeSet
  | [], st => pdone st
  | line :: rest, st =>
    (pline dir1 dir2 fs line st).bind (fun st' => pgo dir1 dir2 fs rest st')

theorem pgo_nil (dir1 dir2 : Str) (fs : Fs) (st : PState) :
    pgo dir1 dir2 fs [] st = pdone st := rfl

theorem pgo_cons (dir1 dir2 : Str) (fs : Fs) (line : Str) (rest : List Str)
    (st : PState) :
    pgo dir1 dir2 fs (line :: rest) st =
      (pline dir1 dir2 fs line st).bind (fun st' => pgo dir1 dir2 fs rest st') := rfl


def parseLines (dir1 dir2 : Str) (fs : Fs) (ls : List Str) : Option ChangeSet :=
  pgo dir1 dir2 fs ls initPState

/-- `getDifferences` on the raw decoded diff output: split on newlines, drop
a trailing empty line, then run the dispatch loop. -/
def parseRaw (dir1 dir2 : Str) (fs : Fs) (raw : Str) : Option ChangeSet :=
  let o := splitOnCh '\n' raw
  let o := if o.getLast? = some [] then o.dropLast else o
  parseLines dir1 dir2 fs o

/-- The empty file system (no reads succeed). -/
def emptyFs : Fs := fun _ => none

/-! ### Claim C3: the concrete one-hunk scenario -/

/-- The raw input of claim C3. -/
def c3Input : Str := "--- a/x.txt\n+++ b/x.txt\n@@ -1,2 +1,2 @@\n-old\n+new\n context\n".toList

/-- C3, counterexample.  On the claimed input the parser does produce a
single file `b/x.txt` with four records of the claimed kinds and contents,
but the `Inserted` record carries `(line1, line2) = (2, 1)` — the deleted
line has already advanced `lineNum1` and `lineNum2` is not yet advanced —
and the `Context` record carries `(2, 2)`, not the claimed `(1, 2)` and
`(2, 3)`. -/
theorem c3_records_counterexample :
    (parseRaw "a".toList "b".toList emptyFs c3Input).map
        (fun cs => (csGet cs "b/x.txt".toList).map (fun r => (r.type, r.line1, r.line2))) ≠
      some [(.NEW_CHUNK, 1, 1), (.DELETED, 1, 1), (.INSERTED, 1, 2), (.CONTEXT, 2, 3)] := by
  decide

/-- C3, amended: the exact parse of the concrete input, with the line
numbers the counter arithmetic of `getDifferences` actually produces:
`NewChunk (1,1)`, `Deleted (1,1) "old"`, `Inserted (2,1) "new"`,
`Context (2,2) "context"` (trailing whitespace trimmed). -/
theorem c3_records :
    parseRaw "a".toList "b".toList emptyFs c3Input =
      some [( "b/x.txt".toList,
        [⟨.NEW_CHUNK, 1, 1, .pair "a/x.txt".toList "b/x.txt".toList⟩,
         ⟨.DELETED, 1, 1, .text "old".toList⟩,
         ⟨.INSERTED, 2, 1, .text "new".toList⟩,
         ⟨.CONTEXT, 2, 2, .text "context".toList⟩])] := by
  decide

/-! ### Claim C5: binary detection in the whole-file-insert path -/

/-- The version of the binary test used by the claim: *strictly more than* 50% of the
first 100 characters are non-printable/non-ASCII.  (Stated from the words
of the spec, for comparison with `halfBinary` of the source.) -/
def specMoreThanHalfBinary (data : Str) : Bool :=
  let first100 := data.take 100
  decide (first100.length < 2 * (first100.filter isBinChar).length)

/-- C5, counterexample.  On a two-character file whose decoded content is
`"a\x01"`, exactly half (not more than half) of the characters are binary,
so the claim requires per-line expansion with the actual content; the code
nevertheless substitutes the binary sentinel, because its test is
`numBin / totalChars >= 0.5`, not `> 0.5`. -/
theorem c5_half_binary_counterexample :
    specMoreThanHalfBinary "a\x01".toList = false ∧
      insertedEntireFile
          (fun s => if s = "f".toList then some (.file "a\x01".toList) else none)
          "f".toList [] =
        some [( "f".toList,
          [⟨.ADDED_FILE, 1, 1, .text "f".toList⟩,
           ⟨.INSERTED, 1, 1, .text binarySentinel⟩])] := by
  constructor
  · decide
  · decide

/-- C5, amended (threshold `≥ 50%` instead of `> 50%`): for a regular file,
when at least half of the first 100 decoded characters are
non-printable/non-ASCII (and there is at least one character), the parser
emits the `AddedFile` record followed by exactly one `Inserted` record whose
content is the binary sentinel; otherwise one `Inserted` record per line of
the actual content, with `line1` fixed at 1 and `line2` the 1-based line
index. -/
theorem c5_binary_sentinel (fs : Fs) (fname data : Str) (cs : ChangeSet)
    (hfs : fs fname = some (.file data)) (hmem : csMember fname cs = false) :
    (halfBinary data = true →
      insertedEntireFile fs fname cs =
        some (cs ++ [(fname,
          [⟨.ADDED_FILE, 1, 1, .text fname⟩,
           ⟨.INSERTED, 1, 1, .text binarySentinel⟩])])) ∧
    (halfBinary data = false →
      insertedEntireFile fs fname cs =
        some (cs ++ [(fname,
          ⟨.ADDED_FILE, 1, 1, .text fname⟩ ::
            (splitOnCh '\n' data).enum.map
              (fun p => ⟨.INSERTED, 1, (p.1 : Int) + 1, .text p.2⟩))])) := by
  constructor
  · intro hb
    simp only [insertedEntireFile, hfs, hmem, if_neg Bool.false_ne_true,
      addedFileRecords, hb, if_pos rfl]
    rfl
  · intro hb
    simp only [insertedEntireFile, hfs, hmem, addedFileRecords, hb]
    rfl

/-- Witness for `c5_binary_sentinel` at the concrete file content
`"ab\ncd"` (no binary characters): per-line expansion happens. -/
theorem c5_binary_sentinel_witness :
    insertedEntireFile
        (fun s => if s = "g".toList then some (.file "ab\ncd".toList) else none)
        "g".toList [] =
      some [( "g".toList,
        [⟨.ADDED_FILE, 1, 1, .text "g".toList⟩,
         ⟨.INSERTED, 1, 1, .text "ab".toList⟩,
         ⟨.INSERTED, 1, 2, .text "cd".toList⟩])] := by
  have h := (c5_binary_sentinel
    (fun s => if s = "g".toList then some (.file "ab\ncd".toList) else none)
    "g".toList "ab\ncd".toList [] (by decide) (by decide)).2 (by decide)
  exact h.trans (by decide)

/-! ### Claim C10: fixed line numbers of the whole-file marker records -/

/-- The fixed line-number discipline of the whole-file markers:
`RemovedFile` carries `(-1, -1)`, `AddedFile` carries `(1, 1)`,
`DifferingBinary` carries `(0, 0)`. -/
def markerLinesOk (r : ChangeInfo) : Prop :=
  (r.type = .REMOVED_FILE → r.line1 = -1 ∧ r.line2 = -1) ∧
  (r.type = .ADDED_FILE → r.line1 = 1 ∧ r.line2 = 1) ∧
  (r.type = .DIFFERING_BINARY → r.line1 = 0 ∧ r.line2 = 0)

/-- The marker discipline over a whole change set. -/
def csMarkersOk (cs : ChangeSet) : Prop :=
  ∀ f rs, (f, rs) ∈ cs → ∀ r ∈ rs, markerLinesOk r

theorem markerLinesOk_addedFileRecords (f d : Str) :
    ∀ r ∈ addedFileRecords f d, markerLinesOk r := by
  intro r hr
  simp only [addedFileRecords, List.mem_cons, List.mem_map] at hr
  rcases hr with h | ⟨p, _, h⟩ <;> subst h <;> simp [markerLinesOk]

theorem csMarkersOk_append (cs : ChangeSet) (f : Str) (rs : List ChangeInfo)
    (h : csMarkersOk cs) (h2 : ∀ r ∈ rs, markerLinesOk r) :
    csMarkersOk (cs ++ [(f, rs)]) := by
  intro g gs hg r hr
  rcases List.mem_append.1 hg with hg | hg
  · exact h g gs hg r hr
  · simp only [List.mem_singleton, Prod.mk.injEq] at hg
    obtain ⟨_, rfl⟩ := hg
    exact h2 r hr

theorem csMarkersOk_csAppend (cs : ChangeSet) (g : Str) (r0 : ChangeInfo)
    (h : csMarkersOk cs) (hr0 : markerLinesOk r0) :
    csMarkersOk (csAppend cs g r0) := by
  intro f rs hf r hr
  simp only [csAppend, List.mem_map] at hf
  obtain ⟨p, hp, he⟩ := hf
  by_cases hpg : p.1 = g
  · rw [if_pos hpg] at he
    injection he with h1 h2
    subst h2
    rcases List.mem_append.1 hr with h' | h'
    · exact h p.1 p.2 (by rwa [Prod.mk.eta]) r h'
    · rw [List.mem_singleton.1 h']
      exact hr0
  · rw [if_neg hpg] at he
    exact h f rs (he ▸ hp) r hr

theorem csMarkersOk_insertedEntireFile (fs : Fs) (f : Str) :
    ∀ (cs cs' : ChangeSet), csMarkersOk cs →
      insertedEntireFile fs f cs = some cs' → csMarkersOk cs' := by
  intro cs cs' h he
  unfold insertedEntireFile at he
  match hnode : fs f with
  | none => rw [hnode] at he; exact absurd he (by simp)
  | some (.file d) =>
    rw [hnode] at he
    by_cases hm : csMember f cs
    · simp [hm] at he
    · simp only [hm, Bool.false_eq_true, if_false, Option.some.injEq] at he
      exact he ▸ csMarkersOk_append cs f _ h (markerLinesOk_addedFileRecords f d)
  | some (.dir entries) =>
    rw [hnode] at he
    clear hnode
    induction entries generalizing cs with
    | nil =>
      simp only [List.foldlM_nil, pure, Option.some.injEq] at he
      exact he ▸ h
    | cons e es ih =>
      simp only [List.foldlM_cons] at he
      by_cases hm : csMember e.1 cs
      · simp [hm] at he
      · simp only [hm, Bool.false_eq_true, if_false, Option.some_bind] at he
        exact ih _ (csMarkersOk_append cs e.1 _ h (markerLinesOk_addedFileRecords e.1 e.2)) he

theorem stepOnlyIn_markersOk (dir1 dir2 : Str) (fs : Fs) (line : Str)
    (st st' : PState) (h : csMarkersOk st.cs)
    (he : stepOnlyIn dir1 dir2 fs line st = some st') : csMarkersOk st'.cs := by
  unfold stepOnlyIn at he
  split at he
  · exact absurd he (by simp)
  · split at he
    · split at he
      · rename_i cs' hins
        injection he with he'
        rw [← he']
        exact csMarkersOk_insertedEntireFile fs _ st.cs cs' h hins
      · exact absurd he (by simp)
    · split at he
      · split at he
        · exact absurd he (by simp)
        · injection he with he'
          rw [← he']
          exact csMarkersOk_append st.cs _ _ h (by simp [markerLinesOk])
      · exact absurd he (by simp)

theorem stepHeader_markersOk (line line2 : Str) (st st' : PState)
    (h : csMarkersOk st.cs) (he : stepHeader line line2 st = some st') :
    csMarkersOk st'.cs := by
  unfold stepHeader at he
  split at he
  · split at he
    · exact absurd he (by simp)
    · injection he with he'
      rw [← he']
      exact csMarkersOk_append st.cs _ _ h (by simp)
  · exact absurd he (by simp)

theorem stepHunk_markersOk (line : Str) (st st' : PState)
    (h : csMarkersOk st.cs) (he : stepHunk line st = some st') :
    csMarkersOk st'.cs := by
  unfold stepHunk at he
  split at he
  · split at he
    · split at he
      · split at he
        · split at he
          · injection he with he'
            rw [← he']
            exact csMarkersOk_csAppend st.cs _ _ h (by simp [markerLinesOk])
          · exact absurd he (by simp)
        · exact absurd he (by simp)
      · exact absurd he (by simp)
    · exact absurd he (by simp)
  · exact absurd he (by simp)

theorem stepContent_markersOk (ty : ChangeType) (line : Str) (st st' : PState)
    (hty : ty ≠ .REMOVED_FILE ∧ ty ≠ .ADDED_FILE ∧ ty ≠ .DIFFERING_BINARY)
    (h : csMarkersOk st.cs) (he : stepContent ty line st = some st') :
    csMarkersOk st'.cs := by
  unfold stepContent at he
  split at he
  · split at he
    · injection he with he'
      rw [← he']
      refine csMarkersOk_csAppend st.cs _ _ h ?_
      exact ⟨fun h' => absurd h' hty.1, fun h' => absurd h' hty.2.1,
        fun h' => absurd h' hty.2.2⟩
    · exact absurd he (by simp)
  · exact absurd he (by simp)

theorem stepBinary_markersOk (line : Str) (st st' : PState)
    (h : csMarkersOk st.cs) (he : stepBinary line st = some st') :
    csMarkersOk st'.cs := by
  unfold stepBinary at he
  split at he
  · split at he
    · exact absurd he (by simp)
    · injection he with he'
      rw [← he']
      exact csMarkersOk_append st.cs _ _ h (by simp [markerLinesOk])
  · exact absurd he (by simp)

theorem pline_markersOk (dir1 dir2 : Str) (fs : Fs) (line : Str)
    (st st' : PState) (h : csMarkersOk st.cs)
    (he : pline dir1 dir2 fs line st = some st') : csMarkersOk st'.cs := by
  unfold pline at he
  split at he
  · exact stepHeader_markersOk _ line st st' h he
  · split_ifs at he with h1 h2 h3 h4 h5 h6 h7 h8 h9
    · injection he with he'
      exact he' ▸ h
    · exact stepOnlyIn_markersOk dir1 dir2 fs line st st' h he
    · injection he with he'
      exact he' ▸ h
    · exact stepHunk_markersOk line st st' h he
    · exact stepContent_markersOk _ line st st' (by simp) h he
    · exact stepContent_markersOk _ line st st' (by simp) h he
    · exact stepContent_markersOk _ line st st' (by simp) h he
    · injection he with he'
      exact he' ▸ h
    · exact stepBinary_markersOk line st st' h he

theorem pgo_markersOk (dir1 dir2 : Str) (fs : Fs) (ls : List Str) (st : PState) :
    csMarkersOk st.cs → ∀ cs, pgo dir1 dir2 fs ls st = some cs → csMarkersOk cs := by
  induction ls generalizing st with
  | nil =>
    intro hst cs hp
    rw [pgo_nil] at hp
    unfold pdone at hp
    split at hp
    · injection hp with hp'
      exact hp' ▸ hst
    · exact absurd hp (by simp)
  | cons line rest ih =>
    intro hst cs hp
    rw [pgo_cons] at hp
    match hstep : pline dir1 dir2 fs line st with
    | none => rw [hstep] at hp; exact absurd hp (by simp)
    | some st' =>
      rw [hstep] at hp
      simp only [Option.some_bind] at hp
      exact ih st' (pline_markersOk dir1 dir2 fs line st st' hst hstep) cs hp

/-- C10: in every parser-produced `ChangeSet`, every `RemovedFile` record
has `line1 = line2 = -1`, every `AddedFile` record has `line1 = line2 = 1`,
and every `DifferingBinary` record has `line1 = line2 = 0` — the values the
discard-interval test of the rendering loop, `line1 ≤ n ≤ line2` sees for such
records. -/
theorem c10_marker_lines (dir1 dir2 : Str) (fs : Fs) (ls : List Str)
    (cs : ChangeSet) (h : parseLines dir1 dir2 fs ls = some cs) :
    ∀ f rs, (f, rs) ∈ cs → ∀ r ∈ rs, markerLinesOk r :=
  pgo_markersOk dir1 dir2 fs ls initPState
    (by intro f rs hf; simp [initPState] at hf) cs h

/-- Witness for `c10_marker_lines`: the `RemovedFile` produced for
`Only in d1: gone` indeed carries `(-1, -1)`. -/
theorem c10_marker_lines_witness :
    markerLinesOk ⟨.REMOVED_FILE, -1, -1, .text "d1/gone".toList⟩ :=
  c10_marker_lines "d1".toList "d2".toList emptyFs
    [ "Only in d1: gone".toList]
    [( "d1/gone".toList, [⟨.REMOVED_FILE, -1, -1, .text "d1/gone".toList⟩])]
    (by decide) "d1/gone".toList
    [⟨.REMOVED_FILE, -1, -1, .text "d1/gone".toList⟩] (by decide) _ (by decide)

/-! ### The paginated layout engine

The nonlocal cursor variables of `main` (`Y`, `pageIsOpen`, `pageNum`,
`numPages`, `numLineNumberDigits`) form the state `LSt`; every drawing
helper returns the updated state together with the draw events it emitted.
Geometry is exact rational arithmetic; colors, line widths and dash
patterns of the events are configuration constants and are omitted from
the event data. -/

/-- Exact rational scalars for the page geometry, kept as unreduced
fractions with positive denominators, so that every operation reduces
inside the kernel.  All comparisons the code performs are exact value
comparisons by cross-multiplication; the code never branches on float
equality, so this models the float geometry as exact real arithmetic. -/
structure Q where
  n : Int
  d : Int
deriving DecidableEq, Repr

/-- Integer constant as a scalar. -/
def qc (i : Int) : Q := ⟨i, 1⟩

def qAdd (a b : Q) : Q := ⟨a.n * b.d + b.n * a.d, a.d * b.d⟩

def qSub (a b : Q) : Q := ⟨a.n * b.d - b.n * a.d, a.d * b.d⟩

def qMul (a b : Q) : Q := ⟨a.n * b.n, a.d * b.d⟩

/-- Division, for the positive constant divisors of the source (2, 4, 10,
100); keeps denominators positive. -/
def qDiv (a b : Q) : Q :=
  if 0 ≤ b.n then ⟨a.n * b.d, a.d * b.n⟩ else ⟨-(a.n * b.d), a.d * -b.n⟩

def qLe (a b : Q) : Bool := decide (a.n * b.d ≤ b.n * a.d)

def qLt (a b : Q) : Bool := decide (a.n * b.d < b.n * a.d)

def qSum (l : List Q) : Q := l.foldl qAdd (qc 0)

/-- Draw events emitted to the canvas. -/
inductive Ev where
  | str (x y : Q) (s : Str)
  | rstr (x y : Q) (s : Str)
  | cstr (x y : Q) (s : Str)
  | line (x1 y1 x2 y2 : Q)
  | rect (x y w h : Q)
  | char (c : Char) (x y : Q)
  | tri (x1 y1 x2 y2 x3 y3 : Q)
  | page
deriving DecidableEq, Repr

/-- The layout configuration consumed by `main` after argument parsing:
dimensioned values are already in points, the font metric is the abstract
per-character advance width, `containing` abstracts
`getContainingFunction`, `ignoreMatch` the glob test on base names, and
`discards` the per-file discard-line lists. -/
structure Config where
  pageWidth : Q
  pageHeight : Q
  leftMargin : Q
  rightMargin : Q
  contentMarginTop : Q
  contentMarginBottom : Q
  headerMargin : Q
  footerMargin : Q
  fontSize : Q
  descent : Q
  headerLeft : Str
  headerRight : Str
  footerLeft : Str
  footerRight : Str
  dir1 : Str
  dir2 : Str
  pathdelta : Str
  today : Str
  charWidth : Char → Q
  cfWidth : Str → Q
  ignoreBlankLines : Bool
  strikeoutWidth : Q
  underlineWidth : Q
  showContainingFunction : Bool
  containing : Str → Int → Option Str
  ignoreMatch : Str → Bool
  discards : Str → List Int

/-- The right content margin `pageWidth - rightMargin`. -/
def rightEdge (cfg : Config) : Q := qSub cfg.pageWidth cfg.rightMargin

/-- The layout cursor (the nonlocals of `main`). -/
structure LSt where
  Y : Q
  pageIsOpen : Bool
  pageNum : Nat
  numPages : Nat
  nDigits : Nat
deriving DecidableEq, Repr

/-- Initial cursor: `numPages=0`, `pageIsOpen=False`, `pageNum=1`,
`numLineNumberDigits=1`; `Y` is unassigned in the source until the first
`preparePage`, which always runs before any read, so its initial value is
immaterial. -/
def initLSt : LSt := ⟨qc 0, false, 1, 0, 1⟩

/-- Decimal digits of a natural number. -/
def natToStr (n : Nat) : Str := Nat.toDigits 10 n

/-- Python `str(i)` for integers. -/
def intToStr (i : Int) : Str :=
  if i < 0 then '-' :: natToStr i.natAbs else natToStr i.natAbs

/-- Strip `pre` from the front of `s`. -/
def stripPre : Str → Str → Option Str
  | [], s => some s
  | _ :: _, [] => none
  | p :: ps, c :: rest => if p = c then stripPre ps rest else none

/-- Fuelled worker for `replaceAll`. -/
def replaceAllF (old new : Str) : Nat → Str → Str
  | 0, s => s
  | _ + 1, [] => []
  | fuel + 1, c :: rest =>
    match (if old.isEmpty then none else stripPre old (c :: rest)) with
    | some rem => new ++ replaceAllF old new fuel rem
    | none => c :: replaceAllF old new fuel rest

/-- Python `s.replace(old, new)` for nonempty `old` (all the macro tokens
are nonempty). -/
def replaceAll (old new s : Str) : Str := replaceAllF old new s.length s

/-- One macro substitution pass of `getHeaderAndFooter`: `{pagenum}` is the
current page number, `{numpages}` is `numPages - 1`. -/
def macroSub (cfg : Config) (pageNum numPages : Nat) (s : Str) : Str :=
  let s := replaceAll "{pagenum}".toList (natToStr pageNum) s
  let s := replaceAll "{numpages}".toList (intToStr ((numPages : Int) - 1)) s
  let s := replaceAll "{today}".toList cfg.today s
  let s := replaceAll "{path1}".toList cfg.dir1 s
  let s := replaceAll "{path2}".toList cfg.dir2 s
  replaceAll "{paths}".toList cfg.pathdelta s

/-- `preparePage`: on a closed page, draw header/footer text (with macro
substitution against the pre-increment page number), bump `pageNum`, track
the running maximum in `numPages`, draw the two margin rules, open the page
and reset `Y` to `pageHeight - contentMarginBottom - fontSize`. -/
def preparePage (cfg : Config) (s : LSt) : LSt × List Ev :=
  if s.pageIsOpen then (s, [])
  else
    ({ s with pageIsOpen := true,
              pageNum := s.pageNum + 1,
              numPages := max s.numPages (s.pageNum + 1),
              Y := qSub (qSub cfg.pageHeight cfg.contentMarginBottom) cfg.fontSize },
     [Ev.str cfg.leftMargin (qSub cfg.pageHeight cfg.headerMargin)
        (macroSub cfg s.pageNum s.numPages cfg.headerLeft),
      Ev.rstr (rightEdge cfg) (qSub cfg.pageHeight cfg.headerMargin)
        (macroSub cfg s.pageNum s.numPages cfg.headerRight),
      Ev.str cfg.leftMargin (qSub cfg.footerMargin cfg.fontSize)
        (macroSub cfg s.pageNum s.numPages cfg.footerLeft),
      Ev.rstr (rightEdge cfg) (qSub cfg.footerMargin cfg.fontSize)
        (macroSub cfg s.pageNum s.numPages cfg.footerRight),
      Ev.line cfg.leftMargin (qSub cfg.pageHeight cfg.contentMarginBottom)
        (rightEdge cfg) (qSub cfg.pageHeight cfg.contentMarginBottom),
      Ev.line cfg.leftMargin cfg.contentMarginTop
        (rightEdge cfg) cfg.contentMarginTop])

/-- `endPage`: `showPage` when the page is open. -/
def endPage (s : LSt) : LSt × List Ev :=
  if s.pageIsOpen then ({ s with pageIsOpen := false }, [Ev.page]) else (s, [])

/-- `checkIfPageIsFull`: close the page when the cursor has dropped below
the bottom content boundary. -/
def checkIfPageIsFull (cfg : Config) (s : LSt) : LSt × List Ev :=
  if s.pageIsOpen ∧ qLt s.Y cfg.contentMarginBottom then endPage s else (s, [])

/-- `drawLine`, which re-checks page fullness and re-opens the page before
drawing.  The coordinates are evaluated by the caller before the call. -/
def drawLine (cfg : Config) (x1 y1 x2 y2 : Q) (s : LSt) : LSt × List Ev :=
  let r1 := checkIfPageIsFull cfg s
  let r2 := preparePage cfg r1.1
  (r2.1, r1.2 ++ r2.2 ++ [Ev.line x1 y1 x2 y2])

/-- Advance width of a string: per-character advance widths summed. -/
def strWidth (cfg : Config) (t : Str) : Q := qSum (t.map cfg.charWidth)

/-- The gutter text of `outputLineNumber`: right-justified number plus a
space on a first physical line, dots (at most three) on a continuation
line, all spaces when no number applies. -/
def gutterText (nDigits : Nat) (ln : Option Int) (isFirst : Bool) : Str :=
  match ln with
  | none => List.replicate (nDigits + 1) ' '
  | some n =>
    if isFirst then
      List.replicate (nDigits - (intToStr n).length) ' ' ++ intToStr n ++ [' ']
    else
      List.replicate (min nDigits 3) '.' ++ [' ']

/-- `outputLineNumber`: draw the gutter text at the left margin and return
the x position after it (where the line text starts). -/
def outputLineNumber (cfg : Config) (ln : Option Int) (isFirst : Bool) (s : LSt) :
    Q × List Ev :=
  (qAdd cfg.leftMargin (strWidth cfg (gutterText s.nDigits ln isFirst)),
   [Ev.str cfg.leftMargin s.Y (gutterText s.nDigits ln isFirst)])

/-- `drawStrikeoutsAndUnderlines`: each accumulated segment `(x1, x2, y)`
becomes one horizontal line. -/
def segEvents (segs : List (Q × Q × Q)) : List Ev :=
  segs.map (fun t => Ev.line t.1 t.2.2 t.2.1 t.2.2)

/-- Inner state of the character loop of `outputText`: the text cursor, the
x of the current line start (where a wrap returns to), the
leading-whitespace flag, and the pending strike/underline segments. -/
structure TSt where
  tx : Q
  lineStart : Q
  startDrawing : Bool
  strikes : List (Q × Q × Q)
  underlines : List (Q × Q × Q)
  ls : LSt
deriving DecidableEq

/-- One character of the `outputText` loop.  The boolean result is the
`break` of the deleted-line truncation.  When the next character would
reach or cross the right content margin: a `Deleted` record draws the
triangular truncation arrow and stops; otherwise the cursor wraps to the
line start one line down.  A cursor below the bottom content boundary then
flushes pending segments and moves to a fresh page.  The gutter
continuation marker is drawn on any wrapped or page-broken line.  After the
first non-whitespace character, every character gets a background
rectangle; strike/underline segments accumulate for deleted/inserted
records when their configured widths are positive. -/
def charStep (cfg : Config) (ty : ChangeType) (ln : Int) (c : Char) (t : TSt) :
    TSt × List Ev × Bool :=
  let w := cfg.charWidth c
  let hitMargin := qLe (rightEdge cfg) (qAdd t.tx w)
  if hitMargin ∧ ty = .DELETED then
    (t,
     [Ev.tri (qAdd t.tx (qMul (qc 1) (qDiv w (qc 10))))
         (qAdd (qAdd t.ls.Y (qDiv cfg.fontSize (qc 2))) (qMul ⟨3, 10⟩ cfg.fontSize))
         (qAdd t.tx (qMul (qc 1) (qDiv w (qc 10))))
         (qSub (qAdd t.ls.Y (qDiv cfg.fontSize (qc 2))) (qMul ⟨3, 10⟩ cfg.fontSize))
         (qAdd t.tx w) (qAdd t.ls.Y (qDiv cfg.fontSize (qc 2)))],
     true)
  else
    let t1 :=
      if hitMargin then
        { t with tx := t.lineStart, ls := { t.ls with Y := qSub t.ls.Y cfg.fontSize } }
      else t
    let brk := qLt t1.ls.Y cfg.contentMarginBottom
    let eFlush := if brk then segEvents (t1.strikes ++ t1.underlines) else []
    let t2 :=
      if brk then
        { t1 with strikes := [], underlines := [],
                  tx := cfg.leftMargin, lineStart := cfg.leftMargin,
                  ls := (preparePage cfg (endPage t1.ls).1).1 }
      else t1
    let ePage :=
      if brk then (endPage t1.ls).2 ++ (preparePage cfg (endPage t1.ls).1).2 else []
    let eGut :=
      if hitMargin ∨ brk then (outputLineNumber cfg (some ln) false t2.ls).2 else []
    let sd := t2.startDrawing ∨ ¬ c.isWhitespace
    let eBg :=
      if sd then [Ev.rect t2.tx (qAdd t2.ls.Y cfg.descent) w (qMul cfg.fontSize ⟨95, 100⟩)]
      else []
    let eChar := [Ev.char c t2.tx t2.ls.Y]
    let strikes' :=
      if ty = .DELETED ∧ sd ∧ qLt (qc 0) cfg.strikeoutWidth then
        t2.strikes ++ [(t2.tx, qAdd t2.tx w, qAdd t2.ls.Y (qMul cfg.fontSize ⟨4, 10⟩))]
      else t2.strikes
    let underlines' :=
      if ty = .INSERTED ∧ sd ∧ qLt (qc 0) cfg.underlineWidth then
        t2.underlines ++ [(t2.tx, qAdd t2.tx w, qSub t2.ls.Y (qMul ⟨7, 100⟩ cfg.fontSize))]
      else t2.underlines
    ({ t2 with tx := qAdd t2.tx w, startDrawing := sd,
               strikes := strikes', underlines := underlines' },
     eFlush ++ ePage ++ eGut ++ eBg ++ eChar, false)

/-- The character loop of `outputText`. -/
def textLoop (cfg : Config) (ty : ChangeType) (ln : Int) :
    List Char → TSt → TSt × List Ev
  | [], t => (t, [])
  | c :: rest, t =>
    match charStep cfg ty ln c t with
    | (t2, evs, true) => (t2, evs)
    | (t2, evs, false) =>
      let r := textLoop cfg ty ln rest t2
      (r.1, evs ++ r.2)

/-- `outputText`: page check, first-line gutter, the character loop, then
the batched strike/underline segments.  `Y` is left at the last written
line; the caller decrements it. -/
def outputText (cfg : Config) (txt : Str) (ln : Int) (ty : ChangeType) (s : LSt) :
    LSt × List Ev :=
  let r1 := checkIfPageIsFull cfg s
  let r2 := preparePage cfg r1.1
  let g := outputLineNumber cfg (some ln) true r2.1
  let t0 : TSt := ⟨g.1, g.1, false, [], [], r2.1⟩
  let r3 := textLoop cfg ty ln txt t0
  (r3.1.ls, r1.2 ++ r2.2 ++ g.2 ++ r3.2 ++ segEvents (r3.1.strikes ++ r3.1.underlines))

/-- `os.path.basename`. -/
def basename (s : Str) : Str := ((splitOnCh '/' s).getLast?).getD []

/-- The record content as line text (`Inserted`/`Deleted`/`Context` records
always carry text). -/
def contentText (c : Content) : Str :=
  match c with
  | .text t => t
  | .pair _ _ => []

/-- The number of digits used for the line-number gutter of a chunk:
`1 + int(log10(max(line1, line2, 1)))`. -/
def chunkDigits (l1 l2 : Int) : Nat := (natToStr (max l1 (max l2 1)).toNat).length

/-- The discard test of the rendering loop: some configured discard line
number for this file (keyed by base name) lies in the record interval
`line1 .. line2`. -/
def discardHit (cfg : Config) (fname : Str) (r : ChangeInfo) : Bool :=
  (cfg.discards (basename fname)).any
    (fun n => decide (r.line1 ≤ n) && decide (n ≤ r.line2))

/-- One record of the per-file rendering loop, with the first-chunk flag
threaded through.  A record hit by the discard test is skipped outright:
no cursor advance, no draw. -/
def recStep (cfg : Config) (fname : Str) (r : ChangeInfo) (fc : Bool) (s : LSt) :
    (LSt × List Ev) × Bool :=
  if discardHit cfg fname r then ((s, []), fc)
  else
    match r.type with
    | .NEW_CHUNK =>
      let r1 :=
        if fc then (s, [])
        else
          let ra := drawLine cfg cfg.leftMargin s.Y (rightEdge cfg) s.Y s
          ({ ra.1 with Y := qSub (qSub ra.1.Y (qDiv cfg.fontSize (qc 4))) cfg.fontSize },
           ra.2)
      let r2 := checkIfPageIsFull cfg r1.1
      let s3 := { r2.1 with nDigits := chunkDigits r.line1 r.line2 }
      let r4 :=
        if cfg.showContainingFunction then
          match r.content with
          | .pair _ f2 =>
            match cfg.containing f2 r.line2 with
            | some c2 =>
              let ra := checkIfPageIsFull cfg s3
              let rb := preparePage cfg ra.1
              ({ rb.1 with Y := qSub rb.1.Y cfg.fontSize },
               ra.2 ++ rb.2 ++
                 [Ev.str (qSub (qDiv cfg.pageWidth (qc 2)) (qDiv (cfg.cfWidth c2) (qc 2)))
                    rb.1.Y c2])
            | none => (s3, [])
          | .text _ => (s3, [])
        else (s3, [])
      ((r4.1, r1.2 ++ r2.2 ++ r4.2), false)
    | .DIFFERING_BINARY => ((s, []), fc)
    | .REMOVED_FILE => ((s, []), fc)
    | .ADDED_FILE => ((s, []), fc)
    | _ =>
      if cfg.ignoreBlankLines ∧ trimWs (contentText r.content) = [] then ((s, []), fc)
      else
        let r1 := outputText cfg (contentText r.content)
          (if r.type = .DELETED then r.line1 else r.line2) r.type s
        (({ r1.1 with Y := qSub r1.1.Y cfg.fontSize }, r1.2), fc)

/-- The record loop of one file. -/
def recsLoop (cfg : Config) (fname : Str) :
    List ChangeInfo → Bool → LSt → LSt × List Ev
  | [], _, s => (s, [])
  | r :: rest, fc, s =>
    let r1 := recStep cfg fname r fc s
    let r2 := recsLoop cfg fname rest r1.2 r1.1.1
    (r2.1, r1.1.2 ++ r2.2)

/-- The banner text: base name plus the whole-file marker suffix taken from
the first record. -/
def bannerText (fname : Str) (changes : List ChangeInfo) : Str :=
  match changes.head? with
  | some r =>
    if r.type = .REMOVED_FILE then basename fname ++ " [file deleted]".toList
    else if r.type = .ADDED_FILE then basename fname ++ " [file added]".toList
    else if r.type = .DIFFERING_BINARY then
      basename fname ++ " [binary files differ]".toList
    else basename fname
  | none => basename fname

/-- Rendering of one file: glob-ignore test on the base name, forced page
break when less than a banner plus one content line of room remains
(`SPACE = 2`), the four-line banner with the centered file name, then the
record loop. -/
def renderFile (cfg : Config) (cs : ChangeSet) (fname : Str) (s : LSt) :
    LSt × List Ev :=
  if cfg.ignoreMatch (basename fname) then (s, [])
  else
    let r0 :=
      if qLt s.Y (qAdd (qAdd (qAdd (qAdd (qAdd cfg.contentMarginBottom (qc 2))
          cfg.fontSize) (qc 2)) (qc 2)) cfg.fontSize) then
        endPage s
      else (s, [])
    let txt := bannerText fname (csGet cs fname)
    let r1 := preparePage cfg r0.1
    let r2 := drawLine cfg cfg.leftMargin r1.1.Y (rightEdge cfg) r1.1.Y r1.1
    let s2 := { r2.1 with Y := qSub r2.1.Y (qc 2) }
    let r3 := drawLine cfg cfg.leftMargin s2.Y (rightEdge cfg) s2.Y s2
    let s3 := { r3.1 with Y := qSub r3.1.Y cfg.fontSize }
    let eC := [Ev.cstr (qDiv cfg.pageWidth (qc 2)) s3.Y txt]
    let s4 := { s3 with Y := qSub s3.Y (qc 2) }
    let r5 := drawLine cfg cfg.leftMargin s4.Y (rightEdge cfg) s4.Y s4
    let s5 := { r5.1 with Y := qSub r5.1.Y (qc 2) }
    let r6 := drawLine cfg cfg.leftMargin s5.Y (rightEdge cfg) s5.Y s5
    let s6 := { r6.1 with Y := qSub r6.1.Y cfg.fontSize }
    let r7 := recsLoop cfg fname (csGet cs fname) true s6
    (r7.1, r0.2 ++ r1.2 ++ r2.2 ++ r3.2 ++ eC ++ r5.2 ++ r6.2 ++ r7.2)

/-- Stable insertion of a key into a sorted key list. -/
def insortStr (x : Str) : List Str → List Str
  | [] => [x]
  | y :: ys => if strLe x y then x :: y :: ys else y :: insortStr x ys

/-- `sorted(changeset.keys())`. -/
def sortedKeys (cs : ChangeSet) : List Str := (csKeys cs).foldr insortStr []

/-- The per-file loop of one pass. -/
def filesLoop (cfg : Config) (cs : ChangeSet) : List Str → LSt → LSt × List Ev
  | [], s => (s, [])
  | f :: fns, s =>
    let r1 := renderFile cfg cs f s
    let r2 := filesLoop cfg cs fns r1.1
    (r2.1, r1.2 ++ r2.2)

/-- One full rendering pass: reset `pageNum` to 1 (the only per-pass
reset), open the first page, render every file in sorted key order, close
the last page. -/
def runPass (cfg : Config) (cs : ChangeSet) (s : LSt) : LSt × List Ev :=
  let r1 := preparePage cfg { s with pageNum := 1 }
  let r2 := filesLoop cfg cs (sortedKeys cs) r1.1
  let r3 := endPage r2.1
  (r3.1, r1.2 ++ r2.2 ++ r3.2)

/-- The two-pass run of `main`: pass 2 continues from the cursor state left
by pass 1 (in the source, only `pageNum` is re-initialised between the
passes). -/
def renderTwice (cfg : Config) (cs : ChangeSet) : (LSt × List Ev) × (LSt × List Ev) :=
  let p1 := runPass cfg cs initLSt
  (p1, runPass cfg cs p1.1)

/-- Recognisers for event kinds used in the theorems. -/
def isPageEv : Ev → Bool
  | .page => true
  | _ => false

def isTriEv : Ev → Bool
  | .tri _ _ _ _ _ _ => true
  | _ => false

def isCharEv (c : Char) : Ev → Bool
  | .char c2 _ _ => c = c2
  | _ => false

def isStrEv (g : Str) : Ev → Bool
  | .str _ _ s => s = g
  | _ => false

/-- Exact value equality of scalars. -/
def qEq (a b : Q) : Bool := decide (a.n * b.d = b.n * a.d)

/-- Number of page-close transitions (`showPage` calls) in an event list. -/
def pageCloses (evs : List Ev) : Nat := evs.countP isPageEv

/-- The raw configuration surface of `main` (already validated and, for
dimensions, converted to points).  `footerMargin` is the value of the
`--footer-margin` option. -/
structure Args where
  w : Q
  h : Q
  contentMarginTop : Q
  contentMarginBottom : Q
  headerMargin : Q
  footerMargin : Q
  leftMargin : Q
  rightMargin : Q
  fontSize : Q
  descent : Q
  headerLeft : Str
  headerRight : Str
  footerLeft : Str
  footerRight : Str
  dir1 : Str
  dir2 : Str
  pathdelta : Str
  today : Str
  charWidth : Char → Q
  cfWidth : Str → Q
  ignoreBlankLines : Str
  strikeoutWidth : Q
  underlineWidth : Q
  showContainingFunction : Str
  containing : Str → Int → Option Str
  ignoreMatch : Str → Bool
  discards : Str → List Int

/-- The configuration `main` actually builds from its arguments.  The
`footerMargin` field repeats the source assignment
`footerMargin = toPoints(args.content_margin_bottom)`: the
`--footer-margin` argument is parsed but never read.  A truthiness test on
the choice string models `ignoreBlankLines` (any nonempty string counts as
true) and `showContainingFunction` compares against `"yes"` as in the
source. -/
def mkConfig (a : Args) : Config :=
  { pageWidth := a.w
    pageHeight := a.h
    leftMargin := a.leftMargin
    rightMargin := a.rightMargin
    contentMarginTop := a.contentMarginTop
    contentMarginBottom := a.contentMarginBottom
    headerMargin := a.headerMargin
    footerMargin := a.contentMarginBottom
    fontSize := a.fontSize
    descent := a.descent
    headerLeft := a.headerLeft
    headerRight := a.headerRight
    footerLeft := a.footerLeft
    footerRight := a.footerRight
    dir1 := a.dir1
    dir2 := a.dir2
    pathdelta := a.pathdelta
    today := a.today
    charWidth := a.charWidth
    cfWidth := a.cfWidth
    ignoreBlankLines := a.ignoreBlankLines ≠ []
    strikeoutWidth := a.strikeoutWidth
    underlineWidth := a.underlineWidth
    showContainingFunction := a.showContainingFunction = "yes".toList
    containing := a.containing
    ignoreMatch := a.ignoreMatch
    discards := a.discards }

/-! ### Claim C9: the footer-margin setting has no effect -/

/-- C9: two runs whose configurations differ only in the `--footer-margin`
setting emit identical draw commands, because `main` assigns
`footerMargin = toPoints(args.content_margin_bottom)`: the footer baseline
always sits at the content-bottom-margin distance minus one font size from
the page bottom, and the `--footer-margin` value is never read. -/
theorem c9_footer_margin_unused (a : Args) (v : Q) (cs : ChangeSet) :
    renderTwice (mkConfig { a with footerMargin := v }) cs =
        renderTwice (mkConfig a) cs ∧
      (mkConfig a).footerMargin = a.contentMarginBottom :=
  ⟨rfl, rfl⟩

/-! ### Claim C4: the discard-list skip -/

/-- A small concrete configuration: 100 x 100 page, zero margins, every
character one unit wide, one-unit font, discard list `[7]` for file `f`. -/
def c4Cfg : Config :=
  { pageWidth := qc 100
    pageHeight := qc 100
    leftMargin := qc 0
    rightMargin := qc 0
    contentMarginTop := qc 0
    contentMarginBottom := qc 0
    headerMargin := qc 0
    footerMargin := qc 0
    fontSize := qc 1
    descent := qc 0
    headerLeft := []
    headerRight := []
    footerLeft := []
    footerRight := []
    dir1 := []
    dir2 := []
    pathdelta := []
    today := []
    charWidth := fun _ => qc 1
    cfWidth := fun _ => qc 0
    ignoreBlankLines := true
    strikeoutWidth := qc 0
    underlineWidth := qc 0
    showContainingFunction := false
    containing := fun _ _ => none
    ignoreMatch := fun _ => false
    discards := fun b => if b = "f".toList then [7] else [] }

/-- A parser-shaped hunk starting at `@@ -5 +10 @@` with four deleted
lines: the running `line1` of the deleted records walks 5, 6, 7, 8 while
`line2` stays 10. -/
def c4Hunk : List ChangeInfo :=
  [⟨.NEW_CHUNK, 5, 10, .pair [] []⟩,
   ⟨.DELETED, 5, 10, .text "x".toList⟩,
   ⟨.DELETED, 6, 10, .text "x".toList⟩,
   ⟨.DELETED, 7, 10, .text "x".toList⟩,
   ⟨.DELETED, 8, 10, .text "x".toList⟩]

/-- An open page mid-way down. -/
def c4St : LSt := ⟨qc 50, true, 2, 2, 1⟩

/-- C4, counterexample.  The discard number 7 lies in the `NewChunk`
interval 5..10, so by the claim the whole hunk must contribute no draw
events and no cursor movement.  The code tests each record against its own
running interval: the fourth deleted record carries `(line1, line2) =
(8, 10)`, is missed by the test, and is drawn — the events are nonempty and
the cursor has moved. -/
theorem c4_hunk_discard_counterexample :
    discardHit c4Cfg "f".toList ⟨.NEW_CHUNK, 5, 10, .pair [] []⟩ = true ∧
      discardHit c4Cfg "f".toList ⟨.DELETED, 8, 10, .text "x".toList⟩ = false ∧
      (recsLoop c4Cfg "f".toList c4Hunk true c4St).2 ≠ [] ∧
      (recsLoop c4Cfg "f".toList c4Hunk true c4St).1.Y ≠ c4St.Y := by
  refine ⟨by decide, by decide, by decide, by decide⟩

/-- C4, amended: a record is skipped during rendering — no draw events, no
cursor advance, first-chunk flag untouched — exactly on the code
criterion: some configured discard number for the file lies within the
interval `line1 .. line2` of that record itself.  The `NewChunk` of a hunk
is thus skipped whenever a discard number lies in its own range, but later
records of the hunk are tested against their own running intervals and may
still be drawn (see the counterexample). -/
theorem c4_discard_skips_record (cfg : Config) (fname : Str) (r : ChangeInfo)
    (fc : Bool) (s : LSt) (h : discardHit cfg fname r = true) :
    recStep cfg fname r fc s = ((s, []), fc) := by
  unfold recStep
  simp [h]

/-- Witness for `c4_discard_skips_record`: the `NewChunk` of the
counterexample hunk is itself skipped. -/
theorem c4_discard_skips_record_witness :
    recStep c4Cfg "f".toList ⟨.NEW_CHUNK, 5, 10, .pair [] []⟩ true c4St =
      ((c4St, []), true) :=
  c4_discard_skips_record c4Cfg "f".toList ⟨.NEW_CHUNK, 5, 10, .pair [] []⟩
    true c4St (by decide)

/-! ### Claim C6: the right-margin wrap/truncate boundary -/

/-- A tiny page: right content margin at x = 5, unit-width characters. -/
def c6Cfg : Config :=
  { pageWidth := qc 5
    pageHeight := qc 100
    leftMargin := qc 0
    rightMargin := qc 0
    contentMarginTop := qc 0
    contentMarginBottom := qc 0
    headerMargin := qc 0
    footerMargin := qc 0
    fontSize := qc 1
    descent := qc 0
    headerLeft := []
    headerRight := []
    footerLeft := []
    footerRight := []
    dir1 := []
    dir2 := []
    pathdelta := []
    today := []
    charWidth := fun _ => qc 1
    cfWidth := fun _ => qc 0
    ignoreBlankLines := true
    strikeoutWidth := qc 0
    underlineWidth := qc 0
    showContainingFunction := false
    containing := fun _ _ => none
    ignoreMatch := fun _ => false
    discards := fun _ => [] }

/-- An open page high up. -/
def c6St : LSt := ⟨qc 50, true, 2, 2, 1⟩

/-- C6, counterexample.  Rendering the deleted line `"abc"`: the gutter
(`"1 "`) ends at x = 2, so the third character would end exactly at the
right content margin x = 5.  The claim requires no truncation in that case;
the code tests `t.getX() + charWidth(c) >= pageWidth - rightMargin`, which
holds with equality, so it draws the truncation arrow and never draws the
character. -/
theorem c6_exact_fit_counterexample :
    qEq (qAdd (qAdd c6Cfg.leftMargin
          (strWidth c6Cfg (gutterText 1 (some 1) true))) (qc 3))
        (rightEdge c6Cfg) = true ∧
      (outputText c6Cfg "abc".toList 1 .DELETED c6St).2.any isTriEv = true ∧
      (outputText c6Cfg "abc".toList 1 .DELETED c6St).2.any (isCharEv 'c') = false := by
  refine ⟨by decide, by decide, by decide⟩

/-- C6, amended: with the cursor not below the bottom content boundary,
one character step of `outputText` behaves as follows.  If the character
would end strictly before the right content margin it is drawn at the
cursor position on the same line, with no wrap, no truncation arrow and no
page break.  If it would end at or past the margin (the code uses `>=`, so
an exact fit already triggers): a `Deleted` record draws the truncation
arrow and stops consuming characters without drawing this one; an
`Inserted` or `Context` record wraps — the continuation gutter marker is
drawn, the character itself is still drawn, and consumption continues. -/
theorem endPage_nDigits (s : LSt) : (endPage s).1.nDigits = s.nDigits := by
  unfold endPage
  split <;> rfl

theorem preparePage_nDigits (cfg : Config) (s : LSt) :
    (preparePage cfg s).1.nDigits = s.nDigits := by
  unfold preparePage
  split <;> rfl

theorem c6_wrap_boundary (cfg : Config) (ty : ChangeType) (ln : Int) (c : Char)
    (t : TSt) (hY : qLt t.ls.Y cfg.contentMarginBottom = false) :
    (qLe (rightEdge cfg) (qAdd t.tx (cfg.charWidth c)) = false →
      (charStep cfg ty ln c t).2.2 = false ∧
      (charStep cfg ty ln c t).1.ls.Y = t.ls.Y ∧
      Ev.char c t.tx t.ls.Y ∈ (charStep cfg ty ln c t).2.1 ∧
      (charStep cfg ty ln c t).2.1.any isTriEv = false ∧
      (charStep cfg ty ln c t).2.1.any isPageEv = false) ∧
    (qLe (rightEdge cfg) (qAdd t.tx (cfg.charWidth c)) = true →
      (ty = .DELETED →
        (charStep cfg ty ln c t).2.2 = true ∧
        (charStep cfg ty ln c t).2.1.any isTriEv = true ∧
        (charStep cfg ty ln c t).2.1.any (isCharEv c) = false) ∧
      ((ty = .INSERTED ∨ ty = .CONTEXT) →
        (charStep cfg ty ln c t).2.2 = false ∧
        (charStep cfg ty ln c t).2.1.any
          (isStrEv (gutterText t.ls.nDigits (some ln) false)) = true ∧
        (charStep cfg ty ln c t).2.1.any (isCharEv c) = true)) := by
  refine ⟨?_, ?_⟩
  · intro hfit
    simp only [charStep, hfit, hY, Bool.false_eq_true, false_and, false_or, if_false]
    refine ⟨trivial, trivial, ?_, ?_, ?_⟩ <;> split <;> simp [isTriEv, isPageEv]
  · intro hfit
    refine ⟨?_, ?_⟩
    · intro hty
      subst hty
      simp only [charStep, hfit]
      simp [isTriEv, isCharEv]
    · intro hty
      have hne : (ty = ChangeType.DELETED) = False := by
        rcases hty with rfl | rfl <;> simp
      simp only [charStep, hfit, hne, and_false, if_false, true_or, if_true]
      by_cases hbrk : qLt (qSub t.ls.Y cfg.fontSize) cfg.contentMarginBottom = true <;>
        simp [hbrk, outputLineNumber, isStrEv, isCharEv, endPage_nDigits,
          preparePage_nDigits, List.any_append]

/-- The character-loop state just before the exact-fit third character of
the C6 counterexample line. -/
def c6T : TSt := ⟨qc 4, qc 2, true, [], [], c6St⟩

/-- Witness for `c6_wrap_boundary`: the exact-fit deleted character
triggers the truncation arrow. -/
theorem c6_wrap_boundary_witness :
    (charStep c6Cfg .DELETED 1 'c' c6T).2.2 = true ∧
      (charStep c6Cfg .DELETED 1 'c' c6T).2.1.any isTriEv = true := by
  have h := c6_wrap_boundary c6Cfg .DELETED 1 'c' c6T (by decide)
  have h2 := (h.2 (by decide)).1 rfl
  exact ⟨h2.1, h2.2.1⟩

/-! ### Claim C2: machinery — page accounting

For every drawing operation: the page closes it emits plus the change of
the open flag balance the change of the page number; the page number never
decreases; and `numPages` stays the running maximum of the page number. -/

/-- 1 when the page is open. -/
def openBit (s : LSt) : Nat := if s.pageIsOpen then 1 else 0

theorem pageCloses_append (a b : List Ev) :
    pageCloses (a ++ b) = pageCloses a + pageCloses b :=
  List.countP_append _ _ _

theorem pageCloses_segEvents (l : List (Q × Q × Q)) :
    pageCloses (segEvents l) = 0 := by
  induction l with
  | nil => rfl
  | cons x xs ih => simp [segEvents, pageCloses, isPageEv, List.countP_cons]

/-- The open/close, monotonicity and running-maximum accounting of a piece
of rendering taking the cursor from `s0` to `s1` while emitting `evs`. -/
abbrev PageAcct (s0 : LSt) (evs : List Ev) (s1 : LSt) : Prop :=
  pageCloses evs + openBit s1 + s0.pageNum = openBit s0 + s1.pageNum ∧
  s0.pageNum ≤ s1.pageNum ∧
  (s0.pageNum ≤ s0.numPages →
    s1.pageNum ≤ s1.numPages ∧ s1.numPages = max s0.numPages s1.pageNum)

/-- Accounting for a state-passing drawing operation. -/
def PageOk (f : LSt → LSt × List Ev) : Prop :=
  ∀ s, PageAcct s (f s).2 (f s).1

theorem pageAcct_nil (s : LSt) : PageAcct s [] s :=
  ⟨by simp [pageCloses], Nat.le_refl _, fun h => ⟨h, (Nat.max_eq_left h).symm⟩⟩

theorem pageAcct_trans {s0 s1 s2 : LSt} {e1 e2 : List Ev}
    (h1 : PageAcct s0 e1 s1) (h2 : PageAcct s1 e2 s2) :
    PageAcct s0 (e1 ++ e2) s2 := by
  obtain ⟨a1, a2, a3⟩ := h1
  obtain ⟨b1, b2, b3⟩ := h2
  refine ⟨?_, Nat.le_trans a2 b2, ?_⟩
  · rw [pageCloses_append]
    omega
  · intro h
    obtain ⟨c1, c2⟩ := a3 h
    obtain ⟨d1, d2⟩ := b3 c1
    exact ⟨d1, by rw [d2, c2, Nat.max_assoc, Nat.max_eq_right b2]⟩

/-- Accounting only reads the number of page-close events, so event lists
with equal close counts are interchangeable. -/
theorem pageAcct_closes_congr {s0 s1 : LSt} {e : List Ev}
    (h : PageAcct s0 e s1) (e2 : List Ev)
    (he : pageCloses e2 = pageCloses e) : PageAcct s0 e2 s1 := by
  obtain ⟨a1, a2, a3⟩ := h
  exact ⟨by rw [he]; exact a1, a2, a3⟩

/-- A state change that emits no page closes and touches neither the open
flag nor the page counters. -/
theorem pageAcct_silent {s0 s1 : LSt} {e : List Ev}
    (hopen : openBit s1 = openBit s0) (hpn : s1.pageNum = s0.pageNum)
    (hnp : s1.numPages = s0.numPages) (he : pageCloses e = 0) :
    PageAcct s0 e s1 := by
  refine ⟨by omega, by omega, fun h => ⟨by omega, ?_⟩⟩
  rw [hnp, hpn]
  exact (Nat.max_eq_left h).symm

theorem pageOk_id : PageOk (fun s => (s, [])) := by
  intro s
  refine ⟨by simp [pageCloses], Nat.le_refl _, fun h => ⟨h, (Nat.max_eq_left h).symm⟩⟩

theorem pageOk_preparePage (cfg : Config) : PageOk (preparePage cfg) := by
  intro s
  unfold preparePage
  split
  · exact pageOk_id s
  · refine ⟨?_, Nat.le_succ _, fun h => ⟨Nat.le_max_right _ _, rfl⟩⟩
    simp [pageCloses, isPageEv, openBit, List.countP_cons, *]
    omega

theorem pageOk_endPage : PageOk endPage := by
  intro s
  unfold endPage
  split
  · refine ⟨?_, Nat.le_refl _, fun h => ⟨h, (Nat.max_eq_left h).symm⟩⟩
    simp [pageCloses, isPageEv, openBit, List.countP_cons, *]
  · exact pageOk_id s

theorem pageOk_checkIfPageIsFull (cfg : Config) : PageOk (checkIfPageIsFull cfg) := by
  intro s
  unfold checkIfPageIsFull
  split
  · exact pageOk_endPage s
  · exact pageOk_id s

/-- Accounting composes along sequencing. -/
theorem pageOk_seq_at {f g : LSt → LSt × List Ev} (hf : PageOk f) (hg : PageOk g)
    (s : LSt) (extra : List Ev) (hextra : pageCloses extra = 0) :
    pageCloses ((f s).2 ++ (g (f s).1).2 ++ extra) + openBit (g (f s).1).1 + s.pageNum
        = openBit s + (g (f s).1).1.pageNum ∧
      s.pageNum ≤ (g (f s).1).1.pageNum ∧
      (s.pageNum ≤ s.numPages →
        (g (f s).1).1.pageNum ≤ (g (f s).1).1.numPages ∧
        (g (f s).1).1.numPages = max s.numPages (g (f s).1).1.pageNum) := by
  obtain ⟨a1, a2, a3⟩ := hf s
  obtain ⟨b1, b2, b3⟩ := hg (f s).1
  refine ⟨?_, Nat.le_trans a2 b2, ?_⟩
  · rw [pageCloses_append, pageCloses_append, hextra]
    omega
  · intro h
    obtain ⟨c1, c2⟩ := a3 h
    obtain ⟨d1, d2⟩ := b3 c1
    refine ⟨d1, ?_⟩
    rw [d2, c2, Nat.max_assoc, Nat.max_eq_right b2]

theorem pageOk_drawLine (cfg : Config) (x1 y1 x2 y2 : Q) :
    PageOk (drawLine cfg x1 y1 x2 y2) := by
  intro s
  unfold drawLine
  simpa using pageOk_seq_at (pageOk_checkIfPageIsFull cfg) (pageOk_preparePage cfg) s
    [Ev.line x1 y1 x2 y2] (by simp [pageCloses, isPageEv, List.countP_cons])

theorem pageCloses_ite (c : Prop) [Decidable c] (a b : List Ev) :
    pageCloses (if c then a else b) = if c then pageCloses a else pageCloses b := by
  split <;> rfl

theorem pageOk_breakPage (cfg : Config) :
    PageOk (fun s => ((preparePage cfg (endPage s).1).1,
      (endPage s).2 ++ (preparePage cfg (endPage s).1).2)) := by
  intro s
  have h := pageOk_seq_at pageOk_endPage (pageOk_preparePage cfg) s [] rfl
  simpa using h

theorem pageAcct_charStep (cfg : Config) (ty : ChangeType) (ln : Int) (c : Char) (t : TSt) :
    PageAcct t.ls (charStep cfg ty ln c t).2.1 (charStep cfg ty ln c t).1.ls := by
  simp only [charStep]
  split
  · refine ⟨?_, Nat.le_refl _, fun h => ⟨h, (Nat.max_eq_left h).symm⟩⟩
    simp [pageCloses, isPageEv, List.countP_cons]
  · split <;> split
    · obtain ⟨b1, b2, b3⟩ := pageOk_breakPage cfg
        (LSt.mk (qSub t.ls.Y cfg.fontSize) t.ls.pageIsOpen t.ls.pageNum t.ls.numPages t.ls.nDigits)
      simp only [openBit] at b1 b2 b3 ⊢
      refine ⟨?_, b2, fun h => b3 h⟩
      simp only [pageCloses_append, pageCloses_segEvents, pageCloses_ite] at b1 ⊢
      simp [pageCloses, isPageEv, outputLineNumber, openBit, List.countP_cons] at b1 ⊢
      omega
    · refine ⟨?_, Nat.le_refl _, fun h => ⟨h, (Nat.max_eq_left h).symm⟩⟩
      simp only [openBit, pageCloses_append, pageCloses_segEvents, pageCloses_ite]
      simp [pageCloses, isPageEv, outputLineNumber, List.countP_cons]
    · obtain ⟨b1, b2, b3⟩ := pageOk_breakPage cfg t.ls
      simp only [openBit] at b1 b2 b3 ⊢
      refine ⟨?_, b2, fun h => b3 h⟩
      simp only [pageCloses_append, pageCloses_segEvents, pageCloses_ite] at b1 ⊢
      simp [pageCloses, isPageEv, outputLineNumber, openBit, List.countP_cons] at b1 ⊢
      omega
    · refine ⟨?_, Nat.le_refl _, fun h => ⟨h, (Nat.max_eq_left h).symm⟩⟩
      simp only [openBit, pageCloses_append, pageCloses_segEvents, pageCloses_ite]
      simp [pageCloses, isPageEv, outputLineNumber, List.countP_cons]

theorem pageAcct_textLoop (cfg : Config) (ty : ChangeType) (ln : Int)
    (txt : List Char) : ∀ t : TSt,
    PageAcct t.ls (textLoop cfg ty ln txt t).2 (textLoop cfg ty ln txt t).1.ls := by
  induction txt with
  | nil => intro t; exact pageAcct_nil t.ls
  | cons c rest ih =>
    intro t
    simp only [textLoop]
    have hc := pageAcct_charStep cfg ty ln c t
    rcases hcs : charStep cfg ty ln c t with ⟨t2, evs, stop⟩
    rw [hcs] at hc
    cases stop
    · exact pageAcct_trans hc (ih t2)
    · exact hc

theorem pageAcct_outputText (cfg : Config) (txt : Str) (ln : Int)
    (ty : ChangeType) (s : LSt) :
    PageAcct s (outputText cfg txt ln ty s).2 (outputText cfg txt ln ty s).1 := by
  unfold outputText
  have h1 := pageOk_checkIfPageIsFull cfg s
  have h2 := pageOk_preparePage cfg (checkIfPageIsFull cfg s).1
  have h3 := pageAcct_textLoop cfg ty ln txt
    ⟨(outputLineNumber cfg (some ln) true (preparePage cfg (checkIfPageIsFull cfg s).1).1).1,
     (outputLineNumber cfg (some ln) true (preparePage cfg (checkIfPageIsFull cfg s).1).1).1,
     false, [], [], (preparePage cfg (checkIfPageIsFull cfg s).1).1⟩
  exact pageAcct_trans (pageAcct_trans (pageAcct_trans (pageAcct_trans h1 h2)
      (pageAcct_silent rfl rfl rfl
        (by simp [outputLineNumber, pageCloses, isPageEv, List.countP_cons]))) h3)
    (pageAcct_silent rfl rfl rfl (pageCloses_segEvents _))

/-- Accounting is insensitive to replacing the final state by one with the
same open flag and page counters (e.g. a cursor move). -/
theorem pageAcct_retarget {s0 s1 : LSt} {e : List Ev} (h : PageAcct s0 e s1) (s2 : LSt)
    (ho : openBit s2 = openBit s1) (hp : s2.pageNum = s1.pageNum)
    (hn : s2.numPages = s1.numPages) : PageAcct s0 e s2 := by
  obtain ⟨a1, a2, a3⟩ := h
  refine ⟨by omega, by omega, fun hh => ?_⟩
  obtain ⟨c1, c2⟩ := a3 hh
  exact ⟨by omega, by rw [hn, hp]; exact c2⟩

/-- Accounting is insensitive to replacing the initial state by one with the
same open flag and page counters. -/
theorem pageAcct_source {s0 s1 : LSt} {e : List Ev} (h : PageAcct s0 e s1) (s2 : LSt)
    (ho : openBit s2 = openBit s0) (hp : s2.pageNum = s0.pageNum)
    (hn : s2.numPages = s0.numPages) : PageAcct s2 e s1 := by
  obtain ⟨a1, a2, a3⟩ := h
  refine ⟨by omega, by omega, fun hh => ?_⟩
  obtain ⟨c1, c2⟩ := a3 (by omega)
  exact ⟨c1, by rw [hn]; exact c2⟩

/-- Emitting close-free events without touching the state. -/
theorem pageAcct_emit {s : LSt} (e : List Ev) (he : pageCloses e = 0) : PageAcct s e s :=
  pageAcct_silent rfl rfl rfl he

theorem pageAcct_recStep (cfg : Config) (fname : Str) (r : ChangeInfo) (fc : Bool) (s : LSt) :
    PageAcct s (recStep cfg fname r fc s).1.2 (recStep cfg fname r fc s).1.1 := by
  unfold recStep
  split
  · exact pageAcct_nil s
  · split
    · simp only []
      refine pageAcct_trans (pageAcct_trans ?_ (pageOk_checkIfPageIsFull cfg _)) ?_
      · split
        · exact pageAcct_nil s
        · refine pageAcct_retarget (pageOk_drawLine cfg _ _ _ _ s) _ ?_ ?_ ?_ <;> rfl
      · repeat' split
        all_goals first
          | (refine pageAcct_silent ?_ ?_ ?_ ?_ <;> rfl)
          | (refine pageAcct_retarget (pageAcct_trans (pageAcct_trans
               (pageAcct_source (pageOk_checkIfPageIsFull cfg _) _ ?_ ?_ ?_)
               (pageOk_preparePage cfg _))
               (pageAcct_emit _ ?_)) _ ?_ ?_ ?_
             all_goals rfl)
    · exact pageAcct_nil s
    · exact pageAcct_nil s
    · exact pageAcct_nil s
    · split
      · exact pageAcct_nil s
      · refine pageAcct_retarget (pageAcct_outputText cfg _ _ _ s) _ ?_ ?_ ?_ <;> rfl

theorem pageAcct_recsLoop (cfg : Config) (fname : Str) (rs : List ChangeInfo) :
    ∀ (fc : Bool) (s : LSt),
    PageAcct s (recsLoop cfg fname rs fc s).2 (recsLoop cfg fname rs fc s).1 := by
  induction rs with
  | nil => intro fc s; exact pageAcct_nil s
  | cons r rest ih =>
    intro fc s
    simp only [recsLoop]
    exact pageAcct_trans (pageAcct_recStep cfg fname r fc s) (ih _ _)

theorem pageAcct_renderFile (cfg : Config) (cs : ChangeSet) (fname : Str) (s : LSt) :
    PageAcct s (renderFile cfg cs fname s).2 (renderFile cfg cs fname s).1 := by
  unfold renderFile
  split
  · exact pageAcct_nil s
  · refine pageAcct_trans (pageAcct_trans (pageAcct_trans (pageAcct_trans (pageAcct_trans
      (pageAcct_trans (pageAcct_trans ?_ (pageOk_preparePage cfg _))
        (pageAcct_retarget (pageOk_drawLine cfg _ _ _ _ _) _ rfl rfl rfl))
        (pageAcct_retarget (pageOk_drawLine cfg _ _ _ _ _) _ rfl rfl rfl))
      (pageAcct_silent rfl rfl rfl (by simp [pageCloses, isPageEv, List.countP_cons])))
      (pageAcct_retarget (pageOk_drawLine cfg _ _ _ _ _) _ rfl rfl rfl))
      (pageAcct_retarget (pageOk_drawLine cfg _ _ _ _ _) _ rfl rfl rfl))
      (pageAcct_recsLoop cfg fname _ _ _)
    split
    · exact pageOk_endPage s
    · exact pageAcct_nil s

theorem pageAcct_filesLoop (cfg : Config) (cs : ChangeSet) (fns : List Str) :
    ∀ s : LSt, PageAcct s (filesLoop cfg cs fns s).2 (filesLoop cfg cs fns s).1 := by
  induction fns with
  | nil => intro s; exact pageAcct_nil s
  | cons f rest ih =>
    intro s
    simp only [filesLoop]
    exact pageAcct_trans (pageAcct_renderFile cfg cs f s) (ih _)

theorem endPage_closed (s : LSt) : (endPage s).1.pageIsOpen = false := by
  unfold endPage
  split
  · rfl
  · simp_all

/-- One pass starting on a closed page: the page-close count is one less
than the final page cursor, the pass ends closed, and the recorded
`numPages` is the running maximum of the page cursor. -/
theorem runPass_acct (cfg : Config) (cs : ChangeSet) (s : LSt) (hc : s.pageIsOpen = false) :
    pageCloses (runPass cfg cs s).2 + 1 = (runPass cfg cs s).1.pageNum ∧
    (runPass cfg cs s).1.pageIsOpen = false ∧
    (runPass cfg cs s).1.numPages = max s.numPages (runPass cfg cs s).1.pageNum := by
  have H := pageAcct_trans (pageAcct_trans (pageOk_preparePage cfg { s with pageNum := 1 })
    (pageAcct_filesLoop cfg cs (sortedKeys cs) (preparePage cfg { s with pageNum := 1 }).1))
    (pageOk_endPage
      (filesLoop cfg cs (sortedKeys cs) (preparePage cfg { s with pageNum := 1 }).1).1)
  have Hrest := pageAcct_trans
    (pageAcct_filesLoop cfg cs (sortedKeys cs) (preparePage cfg { s with pageNum := 1 }).1)
    (pageOk_endPage
      (filesLoop cfg cs (sortedKeys cs) (preparePage cfg { s with pageNum := 1 }).1).1)
  obtain ⟨a1, a2, a3⟩ := H
  obtain ⟨b1, b2, b3⟩ := Hrest
  have ho : openBit { s with pageNum := 1 } = 0 := by simp [openBit, hc]
  have hcl : openBit
      (endPage (filesLoop cfg cs (sortedKeys cs)
        (preparePage cfg { s with pageNum := 1 }).1).1).1 = 0 := by
    simp [openBit, endPage_closed]
  have hp : ({ s with pageNum := 1 } : LSt).pageNum = 1 := rfl
  have e1 : (preparePage cfg { s with pageNum := 1 }).1.pageNum = 2 := by
    simp [preparePage, hc]
  have e2 : (preparePage cfg { s with pageNum := 1 }).1.numPages = max s.numPages 2 := by
    simp [preparePage, hc]
  obtain ⟨d1, d2⟩ := b3 (by rw [e1, e2]; exact Nat.le_max_right _ _)
  unfold runPass
  simp only []
  refine ⟨by omega, endPage_closed _, by omega⟩

theorem runPass_closed (cfg : Config) (cs : ChangeSet) (s : LSt) :
    (runPass cfg cs s).1.pageIsOpen = false := by
  unfold runPass
  exact endPage_closed _


theorem pageCloses_preparePage (cfg : Config) (s : LSt) :
    pageCloses (preparePage cfg s).2 = 0 := by
  unfold preparePage
  split <;> simp [pageCloses, isPageEv, List.countP_cons]

theorem pageCloses_endPage (s : LSt) : pageCloses (endPage s).2 = openBit s := by
  unfold endPage openBit
  split <;> simp_all [pageCloses, isPageEv, List.countP_cons]

theorem pageCloses_outputLineNumber (cfg : Config) (ln : Option Int) (isF : Bool)
    (s : LSt) : pageCloses (outputLineNumber cfg ln isF s).2 = 0 := by
  simp [outputLineNumber, pageCloses, isPageEv, List.countP_cons]

/-- The layout cursor with the recorded page count erased: everything the
geometry of a pass can read.  Two states with equal `core` differ at most in
`numPages`, which feeds only the header/footer text macros. -/
def core (s : LSt) : Q × Bool × Nat × Nat := (s.Y, s.pageIsOpen, s.pageNum, s.nDigits)

theorem core_parts {s t : LSt} (h : core s = core t) :
    s.Y = t.Y ∧ s.pageIsOpen = t.pageIsOpen ∧ s.pageNum = t.pageNum ∧
      s.nDigits = t.nDigits := by
  simpa [core, Prod.ext_iff] using h

theorem core_mk {s t : LSt} (hY : s.Y = t.Y) (hO : s.pageIsOpen = t.pageIsOpen)
    (hP : s.pageNum = t.pageNum) (hD : s.nDigits = t.nDigits) : core s = core t := by
  simp [core, hY, hO, hP, hD]

/-- A drawing operation whose cursor trajectory and page-close count do not
depend on the recorded page count. -/
def CoreOk (f : LSt → LSt × List Ev) (g : LSt → LSt × List Ev) : Prop :=
  ∀ s t, core s = core t →
    core (f s).1 = core (g t).1 ∧ pageCloses (f s).2 = pageCloses (g t).2

theorem coreOk_endPage : CoreOk endPage endPage := by
  intro s t h
  obtain ⟨hY, hO, hP, hD⟩ := core_parts h
  unfold endPage
  rw [hO]
  split
  · exact ⟨core_mk hY rfl hP hD, rfl⟩
  · exact ⟨h, rfl⟩

theorem coreOk_preparePage (cfg : Config) : CoreOk (preparePage cfg) (preparePage cfg) := by
  intro s t h
  obtain ⟨hY, hO, hP, hD⟩ := core_parts h
  unfold preparePage
  rw [hO]
  split
  · exact ⟨h, rfl⟩
  · refine ⟨core_mk rfl rfl (by simp [hP]) hD, ?_⟩
    simp [pageCloses, isPageEv, List.countP_cons]

theorem coreOk_checkIfPageIsFull (cfg : Config) :
    CoreOk (checkIfPageIsFull cfg) (checkIfPageIsFull cfg) := by
  intro s t h
  obtain ⟨hY, hO, hP, hD⟩ := core_parts h
  unfold checkIfPageIsFull
  rw [hO, hY]
  split
  · exact coreOk_endPage s t h
  · exact ⟨h, rfl⟩

theorem coreOk_drawLine (cfg : Config) (x1 y1 x2 y2 u1 v1 u2 v2 : Q) :
    CoreOk (drawLine cfg x1 y1 x2 y2) (drawLine cfg u1 v1 u2 v2) := by
  intro s t h
  unfold drawLine
  obtain ⟨h1, h2⟩ := coreOk_checkIfPageIsFull cfg s t h
  obtain ⟨h3, h4⟩ := coreOk_preparePage cfg _ _ h1
  refine ⟨h3, ?_⟩
  rw [pageCloses_append, pageCloses_append, pageCloses_append, pageCloses_append, h2, h4]
  rfl

theorem outputLineNumber_fst (cfg : Config) (ln : Option Int) (isF : Bool)
    {s t : LSt} (hD : s.nDigits = t.nDigits) :
    (outputLineNumber cfg ln isF s).1 = (outputLineNumber cfg ln isF t).1 := by
  unfold outputLineNumber
  rw [hD]

theorem pageCloses_cons (e : Ev) (l : List Ev) :
    pageCloses (e :: l) = pageCloses l + if isPageEv e then 1 else 0 :=
  List.countP_cons _ _ _

theorem pageCloses_nil : pageCloses [] = 0 := rfl

/-- The character-loop state with the recorded page count erased. -/
def coreT (t : TSt) : Q × Q × Bool × List (Q × Q × Q) × List (Q × Q × Q) × (Q × Bool × Nat × Nat) :=
  (t.tx, t.lineStart, t.startDrawing, t.strikes, t.underlines, core t.ls)

set_option maxHeartbeats 1000000 in
/-- One character step depends on the recorded page count only through the
header/footer text: the cursor trajectory, the page-close count and the
truncation flag agree on states with equal `coreT`. -/
theorem coreT_charStep (cfg : Config) (ty : ChangeType) (ln : Int) (c : Char)
    (t u : TSt) (h : coreT t = coreT u) :
    coreT (charStep cfg ty ln c t).1 = coreT (charStep cfg ty ln c u).1 ∧
    pageCloses (charStep cfg ty ln c t).2.1 = pageCloses (charStep cfg ty ln c u).2.1 ∧
    (charStep cfg ty ln c t).2.2 = (charStep cfg ty ln c u).2.2 := by
  obtain ⟨tx, lst, sd0, stk, und, ls⟩ := t
  obtain ⟨Y, po, pn, np, nd⟩ := ls
  obtain ⟨tx2, lst2, sd2, stk2, und2, ls2⟩ := u
  obtain ⟨Y2, po2, pn2, np2, nd2⟩ := ls2
  simp only [coreT, core, Prod.mk.injEq] at h
  obtain ⟨h1, h2, h3, h4, h5, h6, h7, h8, h9⟩ := h
  subst h1 h2 h3 h4 h5 h6 h7 h8 h9
  have hpp : ∀ y : Q,
      core (preparePage cfg (endPage (LSt.mk y po pn np nd)).1).1 =
      core (preparePage cfg (endPage (LSt.mk y po pn np2 nd)).1).1 :=
    fun y => (coreOk_preparePage cfg _ _
      ((coreOk_endPage (LSt.mk y po pn np nd) (LSt.mk y po pn np2 nd)
        (core_mk rfl rfl rfl rfl)).1)).1
  have hY : ∀ y : Q, (preparePage cfg (endPage (LSt.mk y po pn np nd)).1).1.Y =
      (preparePage cfg (endPage (LSt.mk y po pn np2 nd)).1).1.Y :=
    fun y => (core_parts (hpp y)).1
  have hO : ∀ y : Q, (preparePage cfg (endPage (LSt.mk y po pn np nd)).1).1.pageIsOpen =
      (preparePage cfg (endPage (LSt.mk y po pn np2 nd)).1).1.pageIsOpen :=
    fun y => (core_parts (hpp y)).2.1
  have hP : ∀ y : Q, (preparePage cfg (endPage (LSt.mk y po pn np nd)).1).1.pageNum =
      (preparePage cfg (endPage (LSt.mk y po pn np2 nd)).1).1.pageNum :=
    fun y => (core_parts (hpp y)).2.2.1
  have hD : ∀ y : Q, (preparePage cfg (endPage (LSt.mk y po pn np nd)).1).1.nDigits =
      (preparePage cfg (endPage (LSt.mk y po pn np2 nd)).1).1.nDigits :=
    fun y => (core_parts (hpp y)).2.2.2
  refine ⟨?_, ?_, ?_⟩
  all_goals simp only [charStep]
  all_goals split_ifs
  all_goals first
    | rfl
    | simp [coreT, core, Prod.mk.injEq, hY, hO, hP, hD,
        pageCloses_append, pageCloses_cons, pageCloses_nil, pageCloses_endPage,
        pageCloses_preparePage, pageCloses_outputLineNumber, pageCloses_segEvents,
        isPageEv, openBit]

theorem coreT_ls {t u : TSt} (h : coreT t = coreT u) : core t.ls = core u.ls :=
  congrArg (fun p => p.2.2.2.2.2) h

theorem coreT_textLoop (cfg : Config) (ty : ChangeType) (ln : Int) (txt : List Char) :
    ∀ t u : TSt, coreT t = coreT u →
    coreT (textLoop cfg ty ln txt t).1 = coreT (textLoop cfg ty ln txt u).1 ∧
    pageCloses (textLoop cfg ty ln txt t).2 = pageCloses (textLoop cfg ty ln txt u).2 := by
  induction txt with
  | nil => intro t u h; exact ⟨h, rfl⟩
  | cons c rest ih =>
    intro t u h
    obtain ⟨hc1, hc2, hc3⟩ := coreT_charStep cfg ty ln c t u h
    rcases e1 : charStep cfg ty ln c t with ⟨t2, evs, b⟩
    rcases e2 : charStep cfg ty ln c u with ⟨u2, evs2, b2⟩
    rw [e1, e2] at hc1 hc2 hc3
    simp only [] at hc1 hc2 hc3
    subst hc3
    cases b
    · simp only [textLoop, e1, e2]
      obtain ⟨i1, i2⟩ := ih t2 u2 hc1
      exact ⟨i1, by rw [pageCloses_append, pageCloses_append, hc2, i2]⟩
    · simp only [textLoop, e1, e2]
      exact ⟨hc1, hc2⟩

theorem coreOk_outputText (cfg : Config) (txt : Str) (ln : Int) (ty : ChangeType) :
    CoreOk (outputText cfg txt ln ty) (outputText cfg txt ln ty) := by
  intro s u h
  unfold outputText
  obtain ⟨h1, h2⟩ := coreOk_checkIfPageIsFull cfg s u h
  obtain ⟨h3, h4⟩ := coreOk_preparePage cfg _ _ h1
  obtain ⟨hY, hO, hP, hD⟩ := core_parts h3
  have hg : (outputLineNumber cfg (some ln) true
        (preparePage cfg (checkIfPageIsFull cfg s).1).1).1 =
      (outputLineNumber cfg (some ln) true
        (preparePage cfg (checkIfPageIsFull cfg u).1).1).1 :=
    outputLineNumber_fst cfg _ _ hD
  have ht : coreT ⟨(outputLineNumber cfg (some ln) true
        (preparePage cfg (checkIfPageIsFull cfg s).1).1).1,
      (outputLineNumber cfg (some ln) true
        (preparePage cfg (checkIfPageIsFull cfg s).1).1).1,
      false, [], [], (preparePage cfg (checkIfPageIsFull cfg s).1).1⟩ =
      coreT ⟨(outputLineNumber cfg (some ln) true
        (preparePage cfg (checkIfPageIsFull cfg u).1).1).1,
      (outputLineNumber cfg (some ln) true
        (preparePage cfg (checkIfPageIsFull cfg u).1).1).1,
      false, [], [], (preparePage cfg (checkIfPageIsFull cfg u).1).1⟩ := by
    simp [coreT, hg, h3]
  obtain ⟨t1, t2c⟩ := coreT_textLoop cfg ty ln txt _ _ ht
  refine ⟨coreT_ls t1, ?_⟩
  simp only [pageCloses_append, pageCloses_segEvents, pageCloses_outputLineNumber,
    h2, h4, t2c]

theorem core_Ymod {s1 u1 : LSt} (h : core s1 = core u1) (f : Q → Q) :
    core { s1 with Y := f s1.Y } = core { u1 with Y := f u1.Y } := by
  obtain ⟨hY, hO, hP, hD⟩ := core_parts h
  exact core_mk (by rw [hY]) hO hP hD

theorem core_drawMod (cfg : Config) {s u : LSt} (h : core s = core u) :
    core { (drawLine cfg cfg.leftMargin s.Y (rightEdge cfg) s.Y s).1 with
        Y := qSub (qSub (drawLine cfg cfg.leftMargin s.Y (rightEdge cfg) s.Y s).1.Y
          (qDiv cfg.fontSize (qc 4))) cfg.fontSize } =
      core { (drawLine cfg cfg.leftMargin u.Y (rightEdge cfg) u.Y u).1 with
        Y := qSub (qSub (drawLine cfg cfg.leftMargin u.Y (rightEdge cfg) u.Y u).1.Y
          (qDiv cfg.fontSize (qc 4))) cfg.fontSize } ∧
    pageCloses (drawLine cfg cfg.leftMargin s.Y (rightEdge cfg) s.Y s).2 =
      pageCloses (drawLine cfg cfg.leftMargin u.Y (rightEdge cfg) u.Y u).2 := by
  obtain ⟨d1, d2⟩ := coreOk_drawLine cfg cfg.leftMargin s.Y (rightEdge cfg) s.Y
    cfg.leftMargin u.Y (rightEdge cfg) u.Y s u h
  obtain ⟨dY, dO, dP, dD⟩ := core_parts d1
  exact ⟨core_mk (by rw [dY]) dO dP dD, d2⟩

theorem core_contentAux (cfg : Config) (txt : Str) (ln : Int) (ty : ChangeType)
    {s u : LSt} (h : core s = core u) :
    core { (outputText cfg txt ln ty s).1 with
        Y := qSub (outputText cfg txt ln ty s).1.Y cfg.fontSize } =
      core { (outputText cfg txt ln ty u).1 with
        Y := qSub (outputText cfg txt ln ty u).1.Y cfg.fontSize } ∧
    pageCloses (outputText cfg txt ln ty s).2 =
      pageCloses (outputText cfg txt ln ty u).2 := by
  obtain ⟨o1, o2⟩ := coreOk_outputText cfg txt ln ty s u h
  obtain ⟨oY, oO, oP, oD⟩ := core_parts o1
  exact ⟨core_mk (by rw [oY]) oO oP oD, o2⟩

theorem core_chunkS (cfg : Config) (k : Nat) {s1 u1 : LSt} {e1 e2 : List Ev}
    (h1 : core s1 = core u1) (h2 : pageCloses e1 = pageCloses e2) :
    core { (checkIfPageIsFull cfg s1).1 with nDigits := k } =
      core { (checkIfPageIsFull cfg u1).1 with nDigits := k } ∧
    pageCloses (e1 ++ (checkIfPageIsFull cfg s1).2 ++ ([] : List Ev)) =
      pageCloses (e2 ++ (checkIfPageIsFull cfg u1).2 ++ ([] : List Ev)) := by
  obtain ⟨c1, c2⟩ := coreOk_checkIfPageIsFull cfg _ _ h1
  obtain ⟨cY, cO, cP, cD⟩ := core_parts c1
  refine ⟨core_mk cY cO cP rfl, ?_⟩
  simp only [pageCloses_append, pageCloses_nil, h2, c2]

theorem core_chunkC (cfg : Config) (k : Nat) (w : Q) (cst : Str) {s1 u1 : LSt}
    {e1 e2 : List Ev}
    (h1 : core s1 = core u1) (h2 : pageCloses e1 = pageCloses e2) :
    core { (preparePage cfg (checkIfPageIsFull cfg
          { (checkIfPageIsFull cfg s1).1 with nDigits := k }).1).1 with
        Y := qSub (preparePage cfg (checkIfPageIsFull cfg
          { (checkIfPageIsFull cfg s1).1 with nDigits := k }).1).1.Y cfg.fontSize } =
      core { (preparePage cfg (checkIfPageIsFull cfg
          { (checkIfPageIsFull cfg u1).1 with nDigits := k }).1).1 with
        Y := qSub (preparePage cfg (checkIfPageIsFull cfg
          { (checkIfPageIsFull cfg u1).1 with nDigits := k }).1).1.Y cfg.fontSize } ∧
    pageCloses (e1 ++ (checkIfPageIsFull cfg s1).2 ++
        ((checkIfPageIsFull cfg { (checkIfPageIsFull cfg s1).1 with nDigits := k }).2 ++
         (preparePage cfg (checkIfPageIsFull cfg
           { (checkIfPageIsFull cfg s1).1 with nDigits := k }).1).2 ++
         [Ev.str w (preparePage cfg (checkIfPageIsFull cfg
           { (checkIfPageIsFull cfg s1).1 with nDigits := k }).1).1.Y cst])) =
      pageCloses (e2 ++ (checkIfPageIsFull cfg u1).2 ++
        ((checkIfPageIsFull cfg { (checkIfPageIsFull cfg u1).1 with nDigits := k }).2 ++
         (preparePage cfg (checkIfPageIsFull cfg
           { (checkIfPageIsFull cfg u1).1 with nDigits := k }).1).2 ++
         [Ev.str w (preparePage cfg (checkIfPageIsFull cfg
           { (checkIfPageIsFull cfg u1).1 with nDigits := k }).1).1.Y cst])) := by
  obtain ⟨c1, c2⟩ := coreOk_checkIfPageIsFull cfg _ _ h1
  obtain ⟨cY, cO, cP, cD⟩ := core_parts c1
  have h3 : core { (checkIfPageIsFull cfg s1).1 with nDigits := k } =
      core { (checkIfPageIsFull cfg u1).1 with nDigits := k } := core_mk cY cO cP rfl
  obtain ⟨f1, f2⟩ := coreOk_checkIfPageIsFull cfg _ _ h3
  obtain ⟨g1, g2⟩ := coreOk_preparePage cfg _ _ f1
  obtain ⟨gY, gO, gP, gD⟩ := core_parts g1
  refine ⟨core_mk (by rw [gY]) gO gP gD, ?_⟩
  simp only [pageCloses_append, pageCloses_cons, pageCloses_nil, isPageEv, h2, c2, f2, g2]

set_option maxHeartbeats 1000000 in
/-- One record of the rendering loop depends on the recorded page count only
through the header/footer text. -/
theorem core_recStep (cfg : Config) (fname : Str) (r : ChangeInfo) (fc : Bool)
    (s u : LSt) (h : core s = core u) :
    core (recStep cfg fname r fc s).1.1 = core (recStep cfg fname r fc u).1.1 ∧
    pageCloses (recStep cfg fname r fc s).1.2 = pageCloses (recStep cfg fname r fc u).1.2 ∧
    (recStep cfg fname r fc s).2 = (recStep cfg fname r fc u).2 := by
  unfold recStep
  simp only []
  repeat' split
  all_goals try exact And.intro h (And.intro rfl rfl)
  · exact (fun ce => And.intro ce.1 (And.intro ce.2 rfl)) (core_chunkC cfg _ _ _ h rfl)
  · exact (fun ce => And.intro ce.1 (And.intro ce.2 rfl))
      (core_chunkC cfg _ _ _ (core_drawMod cfg h).1 (core_drawMod cfg h).2)
  · exact (fun ce => And.intro ce.1 (And.intro ce.2 rfl)) (core_chunkS cfg _ h rfl)
  · exact (fun ce => And.intro ce.1 (And.intro ce.2 rfl))
      (core_chunkS cfg _ (core_drawMod cfg h).1 (core_drawMod cfg h).2)
  · exact (fun ce => And.intro ce.1 (And.intro ce.2 rfl)) (core_chunkS cfg _ h rfl)
  · exact (fun ce => And.intro ce.1 (And.intro ce.2 rfl))
      (core_chunkS cfg _ (core_drawMod cfg h).1 (core_drawMod cfg h).2)
  · exact (fun ce => And.intro ce.1 (And.intro ce.2 rfl)) (core_chunkS cfg _ h rfl)
  · exact (fun ce => And.intro ce.1 (And.intro ce.2 rfl))
      (core_chunkS cfg _ (core_drawMod cfg h).1 (core_drawMod cfg h).2)
  · exact (fun ce => And.intro ce.1 (And.intro ce.2 rfl)) (core_contentAux cfg _ _ _ h)
  · exact (fun ce => And.intro ce.1 (And.intro ce.2 rfl)) (core_contentAux cfg _ _ _ h)

theorem pageCloses_app_congr {a b c d : List Ev}
    (h1 : pageCloses a = pageCloses b) (h2 : pageCloses c = pageCloses d) :
    pageCloses (a ++ c) = pageCloses (b ++ d) := by
  rw [pageCloses_append, pageCloses_append, h1, h2]

theorem pageCloses_cstr (x y : Q) (t : Str) (x2 y2 : Q) (t2 : Str) :
    pageCloses [Ev.cstr x y t] = pageCloses [Ev.cstr x2 y2 t2] := rfl

/-- The record loop of one file depends on the recorded page count only
through the header/footer text. -/
theorem core_recsLoop (cfg : Config) (fname : Str) (rs : List ChangeInfo) :
    ∀ (fc : Bool) (s u : LSt), core s = core u →
    core (recsLoop cfg fname rs fc s).1 = core (recsLoop cfg fname rs fc u).1 ∧
    pageCloses (recsLoop cfg fname rs fc s).2 = pageCloses (recsLoop cfg fname rs fc u).2 := by
  induction rs with
  | nil => intro fc s u h; exact ⟨h, rfl⟩
  | cons r rest ih =>
    intro fc s u h
    obtain ⟨r1, r2, r3⟩ := core_recStep cfg fname r fc s u h
    simp only [recsLoop]
    rw [r3]
    obtain ⟨i1, i2⟩ := ih (recStep cfg fname r fc u).2 (recStep cfg fname r fc s).1.1
      (recStep cfg fname r fc u).1.1 r1
    exact ⟨i1, by rw [pageCloses_append, pageCloses_append, r2, i2]⟩

set_option maxHeartbeats 1000000 in
/-- Rendering one file depends on the recorded page count only through the
header/footer text. -/
theorem core_renderFile (cfg : Config) (cs : ChangeSet) (fname : Str)
    (s u : LSt) (h : core s = core u) :
    core (renderFile cfg cs fname s).1 = core (renderFile cfg cs fname u).1 ∧
    pageCloses (renderFile cfg cs fname s).2 = pageCloses (renderFile cfg cs fname u).2 := by
  have hY0 := (core_parts h).1
  unfold renderFile
  simp only []
  rw [hY0]
  repeat' split
  · exact ⟨h, rfl⟩
  · constructor
    · exact
        (core_recsLoop cfg fname (csGet cs fname) true _ _ (core_Ymod (coreOk_drawLine cfg _ _
          _ _ _ _ _ _ _ _ (core_Ymod (coreOk_drawLine cfg _ _ _ _ _ _ _ _ _ _ (core_Ymod
          (core_Ymod (coreOk_drawLine cfg _ _ _ _ _ _ _ _ _ _ (core_Ymod (coreOk_drawLine cfg _
          _ _ _ _ _ _ _ _ _ (coreOk_preparePage cfg _ _ (coreOk_endPage s u h).1).1).1 (fun y
          => qSub y (qc 2)))).1 (fun y => qSub y cfg.fontSize)) (fun y => qSub y (qc 2)))).1
          (fun y => qSub y (qc 2)))).1 (fun y => qSub y cfg.fontSize))).1
    · exact
        (pageCloses_app_congr (pageCloses_app_congr (pageCloses_app_congr (pageCloses_app_congr
          (pageCloses_app_congr (pageCloses_app_congr (pageCloses_app_congr (coreOk_endPage s u
          h).2 (coreOk_preparePage cfg _ _ (coreOk_endPage s u h).1).2) (coreOk_drawLine cfg _
          _ _ _ _ _ _ _ _ _ (coreOk_preparePage cfg _ _ (coreOk_endPage s u h).1).1).2)
          (coreOk_drawLine cfg _ _ _ _ _ _ _ _ _ _ (core_Ymod (coreOk_drawLine cfg _ _ _ _ _ _
          _ _ _ _ (coreOk_preparePage cfg _ _ (coreOk_endPage s u h).1).1).1 (fun y => qSub y
          (qc 2)))).2) (pageCloses_cstr _ _ _ _ _ _)) (coreOk_drawLine cfg _ _ _ _ _ _ _ _ _ _
          (core_Ymod (core_Ymod (coreOk_drawLine cfg _ _ _ _ _ _ _ _ _ _ (core_Ymod
          (coreOk_drawLine cfg _ _ _ _ _ _ _ _ _ _ (coreOk_preparePage cfg _ _ (coreOk_endPage
          s u h).1).1).1 (fun y => qSub y (qc 2)))).1 (fun y => qSub y cfg.fontSize)) (fun y =>
          qSub y (qc 2)))).2) (coreOk_drawLine cfg _ _ _ _ _ _ _ _ _ _ (core_Ymod
          (coreOk_drawLine cfg _ _ _ _ _ _ _ _ _ _ (core_Ymod (core_Ymod (coreOk_drawLine cfg _
          _ _ _ _ _ _ _ _ _ (core_Ymod (coreOk_drawLine cfg _ _ _ _ _ _ _ _ _ _
          (coreOk_preparePage cfg _ _ (coreOk_endPage s u h).1).1).1 (fun y => qSub y (qc
          2)))).1 (fun y => qSub y cfg.fontSize)) (fun y => qSub y (qc 2)))).1 (fun y => qSub y
          (qc 2)))).2) (core_recsLoop cfg fname (csGet cs fname) true _ _ (core_Ymod
          (coreOk_drawLine cfg _ _ _ _ _ _ _ _ _ _ (core_Ymod (coreOk_drawLine cfg _ _ _ _ _ _
          _ _ _ _ (core_Ymod (core_Ymod (coreOk_drawLine cfg _ _ _ _ _ _ _ _ _ _ (core_Ymod
          (coreOk_drawLine cfg _ _ _ _ _ _ _ _ _ _ (coreOk_preparePage cfg _ _ (coreOk_endPage
          s u h).1).1).1 (fun y => qSub y (qc 2)))).1 (fun y => qSub y cfg.fontSize)) (fun y =>
          qSub y (qc 2)))).1 (fun y => qSub y (qc 2)))).1 (fun y => qSub y cfg.fontSize))).2)
  · constructor
    · exact
        (core_recsLoop cfg fname (csGet cs fname) true _ _ (core_Ymod (coreOk_drawLine cfg _ _
          _ _ _ _ _ _ _ _ (core_Ymod (coreOk_drawLine cfg _ _ _ _ _ _ _ _ _ _ (core_Ymod
          (core_Ymod (coreOk_drawLine cfg _ _ _ _ _ _ _ _ _ _ (core_Ymod (coreOk_drawLine cfg _
          _ _ _ _ _ _ _ _ _ (coreOk_preparePage cfg _ _ h).1).1 (fun y => qSub y (qc 2)))).1
          (fun y => qSub y cfg.fontSize)) (fun y => qSub y (qc 2)))).1 (fun y => qSub y (qc
          2)))).1 (fun y => qSub y cfg.fontSize))).1
    · exact
        (pageCloses_app_congr (pageCloses_app_congr (pageCloses_app_congr (pageCloses_app_congr
          (pageCloses_app_congr (pageCloses_app_congr (pageCloses_app_congr (rfl : pageCloses
          ([] : List Ev) = pageCloses ([] : List Ev)) (coreOk_preparePage cfg _ _ h).2)
          (coreOk_drawLine cfg _ _ _ _ _ _ _ _ _ _ (coreOk_preparePage cfg _ _ h).1).2)
          (coreOk_drawLine cfg _ _ _ _ _ _ _ _ _ _ (core_Ymod (coreOk_drawLine cfg _ _ _ _ _ _
          _ _ _ _ (coreOk_preparePage cfg _ _ h).1).1 (fun y => qSub y (qc 2)))).2)
          (pageCloses_cstr _ _ _ _ _ _)) (coreOk_drawLine cfg _ _ _ _ _ _ _ _ _ _ (core_Ymod
          (core_Ymod (coreOk_drawLine cfg _ _ _ _ _ _ _ _ _ _ (core_Ymod (coreOk_drawLine cfg _
          _ _ _ _ _ _ _ _ _ (coreOk_preparePage cfg _ _ h).1).1 (fun y => qSub y (qc 2)))).1
          (fun y => qSub y cfg.fontSize)) (fun y => qSub y (qc 2)))).2) (coreOk_drawLine cfg _
          _ _ _ _ _ _ _ _ _ (core_Ymod (coreOk_drawLine cfg _ _ _ _ _ _ _ _ _ _ (core_Ymod
          (core_Ymod (coreOk_drawLine cfg _ _ _ _ _ _ _ _ _ _ (core_Ymod (coreOk_drawLine cfg _
          _ _ _ _ _ _ _ _ _ (coreOk_preparePage cfg _ _ h).1).1 (fun y => qSub y (qc 2)))).1
          (fun y => qSub y cfg.fontSize)) (fun y => qSub y (qc 2)))).1 (fun y => qSub y (qc
          2)))).2) (core_recsLoop cfg fname (csGet cs fname) true _ _ (core_Ymod
          (coreOk_drawLine cfg _ _ _ _ _ _ _ _ _ _ (core_Ymod (coreOk_drawLine cfg _ _ _ _ _ _
          _ _ _ _ (core_Ymod (core_Ymod (coreOk_drawLine cfg _ _ _ _ _ _ _ _ _ _ (core_Ymod
          (coreOk_drawLine cfg _ _ _ _ _ _ _ _ _ _ (coreOk_preparePage cfg _ _ h).1).1 (fun y
          => qSub y (qc 2)))).1 (fun y => qSub y cfg.fontSize)) (fun y => qSub y (qc 2)))).1
          (fun y => qSub y (qc 2)))).1 (fun y => qSub y cfg.fontSize))).2)

/-- The per-file loop depends on the recorded page count only through the
header/footer text. -/
theorem core_filesLoop (cfg : Config) (cs : ChangeSet) (fns : List Str) :
    ∀ s u : LSt, core s = core u →
    core (filesLoop cfg cs fns s).1 = core (filesLoop cfg cs fns u).1 ∧
    pageCloses (filesLoop cfg cs fns s).2 = pageCloses (filesLoop cfg cs fns u).2 := by
  induction fns with
  | nil => intro s u h; exact ⟨h, rfl⟩
  | cons f rest ih =>
    intro s u h
    obtain ⟨r1, r2⟩ := core_renderFile cfg cs f s u h
    simp only [filesLoop]
    obtain ⟨i1, i2⟩ := ih (renderFile cfg cs f s).1 (renderFile cfg cs f u).1 r1
    exact ⟨i1, by rw [pageCloses_append, pageCloses_append, r2, i2]⟩

/-- Two passes started on a closed page with the same gutter width close the
same number of pages, whatever their cursor or page counters. -/
theorem closes_runPass_congr (cfg : Config) (cs : ChangeSet) (s u : LSt)
    (hc : s.pageIsOpen = false) (hcu : u.pageIsOpen = false)
    (hd : s.nDigits = u.nDigits) :
    pageCloses (runPass cfg cs s).2 = pageCloses (runPass cfg cs u).2 := by
  unfold runPass
  simp only []
  have h1 : core (preparePage cfg { s with pageNum := 1 }).1 =
      core (preparePage cfg { u with pageNum := 1 }).1 := by
    simp [preparePage, hc, hcu, core, hd]
  obtain ⟨f1, f2⟩ := core_filesLoop cfg cs (sortedKeys cs) _ _ h1
  obtain ⟨g1, g2⟩ := coreOk_endPage _ _ f1
  simp only [pageCloses_append, pageCloses_preparePage, f2, g2]

/-- A configuration with unit-width characters, a 10-unit line and room for
18 content lines per page, used to exhibit the gutter-width leak between the
two rendering passes. -/
def c2Cfg : Config :=
  { pageWidth := qc 10
    pageHeight := qc 19
    leftMargin := qc 0
    rightMargin := qc 0
    contentMarginTop := qc 0
    contentMarginBottom := qc 0
    headerMargin := qc 0
    footerMargin := qc 0
    fontSize := qc 1
    descent := qc 0
    headerLeft := []
    headerRight := []
    footerLeft := []
    footerRight := []
    dir1 := []
    dir2 := []
    pathdelta := []
    today := []
    charWidth := fun _ => qc 1
    cfWidth := fun _ => qc 0
    ignoreBlankLines := true
    strikeoutWidth := qc 0
    underlineWidth := qc 0
    showContainingFunction := false
    containing := fun _ _ => none
    ignoreMatch := fun _ => false
    discards := fun _ => [] }

/-- A changeset whose second file carries a six-digit chunk line number: the
`numLineNumberDigits` value it leaves behind after pass 1 widens the gutter
of the first file in pass 2, adding a wrapped line there and pushing the
second file onto a further page. -/
def c2Cs : ChangeSet :=
  [( "a".toList,
     [⟨.ADDED_FILE, 1, 1, .text "a".toList⟩,
      ⟨.INSERTED, 1, 1, .text "abcdefg".toList⟩]),
   ( "b".toList, [⟨.NEW_CHUNK, 100000, 100000, .pair [] []⟩])]

/-- Counterexample to C2 as stated: with `c2Cfg`/`c2Cs` the page count
recorded by pass 1 (the `{numpages}` value, `numPages - 1`) differs from the
number of page closes performed by pass 2, because the gutter width left
behind by pass 1 changes the line wrapping of pass 2. -/
theorem c2_page_count_counterexample :
    (renderTwice c2Cfg c2Cs).1.1.numPages - 1 ≠
      pageCloses (renderTwice c2Cfg c2Cs).2.2 := by decide

/-- C2 (amended): when the gutter width `numLineNumberDigits` left behind by
pass 1 equals its initial value 1 (so pass 2 starts from the same gutter
state pass 1 started from), the page count recorded at the end of pass 1
equals the number of page-close transitions of pass 2: the two passes agree
on everything the geometry can read, since the recorded page count feeds
only the header/footer macro text. -/
theorem c2_page_count (cfg : Config) (cs : ChangeSet)
    (hd : (runPass cfg cs initLSt).1.nDigits = 1) :
    pageCloses (renderTwice cfg cs).2.2 + 1 = (renderTwice cfg cs).1.1.numPages := by
  obtain ⟨a1, a2, a3⟩ := runPass_acct cfg cs initLSt rfl
  have hcl : (runPass cfg cs initLSt).1.pageIsOpen = false := runPass_closed cfg cs initLSt
  have hD := closes_runPass_congr cfg cs (runPass cfg cs initLSt).1 initLSt hcl rfl
    (by rw [hd]; rfl)
  have hz : initLSt.numPages = 0 := rfl
  simp only [renderTwice]
  omega

theorem c2_page_count_witness :
    (runPass c2Cfg [] initLSt).1.nDigits = 1 ∧
    pageCloses (renderTwice c2Cfg []).2.2 + 1 = (renderTwice c2Cfg []).1.1.numPages :=
  ⟨by decide, c2_page_count c2Cfg [] (by decide)⟩

/-! ### Claim C1: structure of the record sequences -/

/-- Whether a `NEW_CHUNK` or `ADDED_FILE` record has been seen once `r` is
also taken into account. -/
def advSeen (seen : Bool) (r : ChangeInfo) : Bool :=
  match r.type with
  | .NEW_CHUNK => true
  | .ADDED_FILE => true
  | _ => seen

/-- A content record is in place only after a `NEW_CHUNK` or `ADDED_FILE`. -/
def recOkAt (seen : Bool) (r : ChangeInfo) : Bool :=
  match r.type with
  | .INSERTED => seen
  | .DELETED => seen
  | .CONTEXT => seen
  | _ => true

/-- Every `Inserted`/`Deleted`/`Context` record is preceded by a `NEW_CHUNK`
or `ADDED_FILE` record earlier in the list. -/
def recsOk : Bool → List ChangeInfo → Bool
  | _, [] => true
  | seen, r :: rest => recOkAt seen r && recsOk (advSeen seen r) rest

/-- The seen flag left after a record list. -/
def endSeen (seen : Bool) (l : List ChangeInfo) : Bool := l.foldl advSeen seen

/-- The first record of a file is a chunk opener or a whole-file marker. -/
def firstKindOk (rs : List ChangeInfo) : Bool :=
  match rs with
  | [] => false
  | r :: _ => decide (r.type = .NEW_CHUNK ∨ r.type = .ADDED_FILE ∨
      r.type = .REMOVED_FILE ∨ r.type = .DIFFERING_BINARY)

/-- The amended per-file record discipline: non-empty, opener or marker
first, content records only after a `NEW_CHUNK` or `ADDED_FILE`. -/
def goodRecs (rs : List ChangeInfo) : Bool := firstKindOk rs && recsOk false rs

def goodCs (cs : ChangeSet) : Bool := cs.all (fun p => goodRecs p.2)

/-- The literal discipline of the claim: content records only after a
`NEW_CHUNK` (an `ADDED_FILE` does not count). -/
def recsOkStrict : Bool → List ChangeInfo → Bool
  | _, [] => true
  | seen, r :: rest =>
    (match r.type with
     | .INSERTED => seen
     | .DELETED => seen
     | .CONTEXT => seen
     | _ => true) &&
    recsOkStrict (match r.type with | .NEW_CHUNK => true | _ => seen) rest

def goodRecsStrict (rs : List ChangeInfo) : Bool :=
  firstKindOk rs && recsOkStrict false rs

def goodCsStrict (cs : ChangeSet) : Bool := cs.all (fun p => goodRecsStrict p.2)

/-- One diff-stream item: a `diff` separator line, an `Only in` line, a
`Binary files … differ` line, or a file section (`---`/`+++` header pair
followed by hunks, each a `@@` line with its content lines). -/
inductive DiffItem where
  | sep (rest : Str)
  | onlyIn (line : Str)
  | binary (line : Str)
  | sec (h1 h2 : Str) (hunks : List (Str × List Str))

/-- A content line of a hunk: space/`-`/`+` prefixed (`-` not a `---`
header), or the no-newline marker. -/
def contentWf (l : Str) : Bool :=
  sw " ".toList l || (sw "-".toList l && !sw "---".toList l) || sw "+".toList l ||
    decide (l = "\\ No newline at end of file".toList)

def hunkWf (h : Str × List Str) : Bool :=
  sw "@@ ".toList h.1 && h.2.all contentWf

/-- Well-formedness of one item: the line prefixes that route each line to
its intended branch of the dispatch loop, and at least one hunk per
section. -/
def itemWf : DiffItem → Bool
  | .sep _ => true
  | .onlyIn l => sw "Only in ".toList l
  | .binary l => sw "Binary files ".toList l && ew " differ".toList l
  | .sec h1 _ hunks => sw "---".toList h1 && !decide (hunks = []) && hunks.all hunkWf

def flattenItem : DiffItem → List Str
  | .sep r => ["diff ".toList ++ r]
  | .onlyIn l => [l]
  | .binary l => [l]
  | .sec h1 h2 hunks => h1 :: h2 :: hunks.flatMap (fun h => h.1 :: h.2)

/-- The line loop without the final end-of-input step. -/
def prun (dir1 dir2 : Str) (fs : Fs) : List Str → PState → Option PState
  | [], st => some st
  | l :: rest, st => (pline dir1 dir2 fs l st).bind (prun dir1 dir2 fs rest)

theorem prun_cons (dir1 dir2 : Str) (fs : Fs) (l : Str) (rest : List Str)
    (st : PState) :
    prun dir1 dir2 fs (l :: rest) st =
      (pline dir1 dir2 fs l st).bind (prun dir1 dir2 fs rest) := rfl

theorem pgo_prun (dir1 dir2 : Str) (fs : Fs) (ls : List Str) : ∀ st : PState,
    pgo dir1 dir2 fs ls st = (prun dir1 dir2 fs ls st).bind pdone := by
  induction ls with
  | nil => intro st; rfl
  | cons l rest ih =>
    intro st
    cases hp : pline dir1 dir2 fs l st with
    | none => simp [pgo_cons, prun_cons, hp]
    | some st2 => simp [pgo_cons, prun_cons, hp, ih]

theorem prun_append (dir1 dir2 : Str) (fs : Fs) (a b : List Str) : ∀ st : PState,
    prun dir1 dir2 fs (a ++ b) st =
      (prun dir1 dir2 fs a st).bind (prun dir1 dir2 fs b) := by
  induction a with
  | nil => intro st; rfl
  | cons l rest ih =>
    intro st
    cases hp : pline dir1 dir2 fs l st with
    | none => simp [prun_cons, hp]
    | some st2 => simp [prun_cons, hp, ih]

theorem recsOk_append (l1 l2 : List ChangeInfo) : ∀ s : Bool,
    recsOk s (l1 ++ l2) = (recsOk s l1 && recsOk (endSeen s l1) l2) := by
  induction l1 with
  | nil => intro s; simp [recsOk, endSeen]
  | cons r rest ih =>
    intro s
    simp [recsOk, endSeen, List.foldl_cons, ih, Bool.and_assoc]

theorem endSeen_append (l1 l2 : List ChangeInfo) (s : Bool) :
    endSeen s (l1 ++ l2) = endSeen (endSeen s l1) l2 := by
  simp [endSeen, List.foldl_append]

theorem sw_append (p r : Str) : sw p (p ++ r) = true := by
  rw [sw, List.isPrefixOf_iff_prefix]
  exact List.prefix_append p r

theorem sw_ne {a b : Char} {p l : Str} (q : Str)
    (h : sw (a :: p) l = true) (hne : b ≠ a) : sw (b :: q) l = false := by
  cases l with
  | nil => simp [sw, List.isPrefixOf] at h
  | cons c t =>
    simp only [sw, List.isPrefixOf, Bool.and_eq_true, beq_iff_eq] at h
    obtain ⟨rfl, -⟩ := h
    simp [sw, List.isPrefixOf, hne]

theorem sw_head {a : Char} {p l : Str} (h : sw (a :: p) l = true) :
    ∃ t, l = a :: t := by
  cases l with
  | nil => simp [sw, List.isPrefixOf] at h
  | cons c t =>
    simp only [sw, List.isPrefixOf, Bool.and_eq_true, beq_iff_eq] at h
    exact ⟨t, by rw [h.1]⟩

theorem pline_pending (dir1 dir2 : Str) (fs : Fs) (l : Str) (st : PState)
    (h1 : Str) (hp : st.pending = some h1) :
    pline dir1 dir2 fs l st = stepHeader h1 l st := by
  unfold pline
  rw [hp]

theorem pline_diff (dir1 dir2 : Str) (fs : Fs) (r : Str) (st : PState)
    (hp : st.pending = none) :
    pline dir1 dir2 fs ("diff ".toList ++ r) st = some st := by
  unfold pline
  rw [hp]
  simp [sw, List.isPrefixOf]

theorem pline_onlyIn (dir1 dir2 : Str) (fs : Fs) (l : Str) (st : PState)
    (hp : st.pending = none) (hl : sw "Only in ".toList l = true) :
    pline dir1 dir2 fs l st = stepOnlyIn dir1 dir2 fs l st := by
  have hd : sw "diff ".toList l = false := sw_ne _ hl (by decide)
  unfold pline
  rw [hp]
  simp_all

theorem pline_hdr1 (dir1 dir2 : Str) (fs : Fs) (l : Str) (st : PState)
    (hp : st.pending = none) (hl : sw "---".toList l = true) :
    pline dir1 dir2 fs l st = some { st with pending := some l } := by
  have hd : sw "diff ".toList l = false := sw_ne _ hl (by decide)
  have ho : sw "Only in ".toList l = false := sw_ne _ hl (by decide)
  unfold pline
  rw [hp]
  simp_all

theorem pline_hunk (dir1 dir2 : Str) (fs : Fs) (l : Str) (st : PState)
    (hp : st.pending = none) (hl : sw "@@ ".toList l = true) :
    pline dir1 dir2 fs l st = stepHunk l st := by
  have hd : sw "diff ".toList l = false := sw_ne _ hl (by decide)
  have ho : sw "Only in ".toList l = false := sw_ne _ hl (by decide)
  have hh : sw "---".toList l = false := sw_ne _ hl (by decide)
  unfold pline
  rw [hp]
  simp_all

theorem pline_ctx (dir1 dir2 : Str) (fs : Fs) (l : Str) (st : PState)
    (hp : st.pending = none) (hl : sw " ".toList l = true) :
    pline dir1 dir2 fs l st = stepContent .CONTEXT l st := by
  have hd : sw "diff ".toList l = false := sw_ne _ hl (by decide)
  have ho : sw "Only in ".toList l = false := sw_ne _ hl (by decide)
  have hh : sw "---".toList l = false := sw_ne _ hl (by decide)
  have ha : sw "@@ ".toList l = false := sw_ne _ hl (by decide)
  unfold pline
  rw [hp]
  simp_all

theorem pline_del (dir1 dir2 : Str) (fs : Fs) (l : Str) (st : PState)
    (hp : st.pending = none) (hl : sw "-".toList l = true)
    (hnh : sw "---".toList l = false) :
    pline dir1 dir2 fs l st = stepContent .DELETED l st := by
  have hd : sw "diff ".toList l = false := sw_ne _ hl (by decide)
  have ho : sw "Only in ".toList l = false := sw_ne _ hl (by decide)
  have ha : sw "@@ ".toList l = false := sw_ne _ hl (by decide)
  have hs : sw " ".toList l = false := sw_ne _ hl (by decide)
  unfold pline
  rw [hp]
  simp_all

theorem pline_ins (dir1 dir2 : Str) (fs : Fs) (l : Str) (st : PState)
    (hp : st.pending = none) (hl : sw "+".toList l = true) :
    pline dir1 dir2 fs l st = stepContent .INSERTED l st := by
  have hd : sw "diff ".toList l = false := sw_ne _ hl (by decide)
  have ho : sw "Only in ".toList l = false := sw_ne _ hl (by decide)
  have hh : sw "---".toList l = false := sw_ne _ hl (by decide)
  have ha : sw "@@ ".toList l = false := sw_ne _ hl (by decide)
  have hs : sw " ".toList l = false := sw_ne _ hl (by decide)
  have hm : sw "-".toList l = false := sw_ne _ hl (by decide)
  unfold pline
  rw [hp]
  simp_all

theorem pline_nonl (dir1 dir2 : Str) (fs : Fs) (st : PState)
    (hp : st.pending = none) :
    pline dir1 dir2 fs "\\ No newline at end of file".toList st = some st := by
  unfold pline
  rw [hp]
  simp only [show sw "diff ".toList "\\ No newline at end of file".toList = false
      from by decide,
    show sw "Only in ".toList "\\ No newline at end of file".toList = false from by decide,
    show sw "---".toList "\\ No newline at end of file".toList = false from by decide,
    show sw "@@ ".toList "\\ No newline at end of file".toList = false from by decide,
    show sw " ".toList "\\ No newline at end of file".toList = false from by decide,
    show sw "-".toList "\\ No newline at end of file".toList = false from by decide,
    show sw "+".toList "\\ No newline at end of file".toList = false from by decide,
    Bool.false_eq_true, if_false, if_pos rfl]
  simp

theorem pline_binary (dir1 dir2 : Str) (fs : Fs) (l : Str) (st : PState)
    (hp : st.pending = none) (hl : sw "Binary files ".toList l = true)
    (he : ew " differ".toList l = true) :
    pline dir1 dir2 fs l st = stepBinary l st := by
  have hd : sw "diff ".toList l = false := sw_ne _ hl (by decide)
  have ho : sw "Only in ".toList l = false := sw_ne _ hl (by decide)
  have hh : sw "---".toList l = false := sw_ne _ hl (by decide)
  have ha : sw "@@ ".toList l = false := sw_ne _ hl (by decide)
  have hs : sw " ".toList l = false := sw_ne _ hl (by decide)
  have hm : sw "-".toList l = false := sw_ne _ hl (by decide)
  have hq : sw "+".toList l = false := sw_ne _ hl (by decide)
  have hne : l ≠ "\\ No newline at end of file".toList := by
    obtain ⟨t, rfl⟩ := sw_head hl
    simp
  unfold pline
  rw [hp]
  simp_all

theorem csMember_last (f : Str) (cs0 : ChangeSet) (rs : List ChangeInfo) :
    csMember f (cs0 ++ [(f, rs)]) = true := by
  simp [csMember, csKeys]

theorem csAppend_notmem (cs0 : ChangeSet) (f : Str) (r : ChangeInfo)
    (hm : csMember f cs0 = false) : csAppend cs0 f r = cs0 := by
  induction cs0 with
  | nil => rfl
  | cons p t ih =>
    have h1 : ¬ (f = p.1 ∨ f ∈ csKeys t) := by
      simpa [csMember, csKeys] using hm
    have hm2 : csMember f t = false := by
      simp only [csMember, decide_eq_false_iff_not]
      exact fun hh => h1 (Or.inr hh)
    have h2 := ih hm2
    simp only [csAppend, List.map_cons] at h2 ⊢
    rw [if_neg (fun hh => h1 (Or.inl hh.symm)), h2]

theorem csAppend_last (cs0 : ChangeSet) (f : Str) (rs : List ChangeInfo)
    (r : ChangeInfo) (hm : csMember f cs0 = false) :
    csAppend (cs0 ++ [(f, rs)]) f r = cs0 ++ [(f, rs ++ [r])] := by
  have h1 := csAppend_notmem cs0 f r hm
  simp only [csAppend, List.map_append] at h1 ⊢
  rw [h1]
  simp

theorem stepHeader_cases (h1 l : Str) (st st2 : PState)
    (he : stepHeader h1 l st = some st2) :
    csMember (hdrPath l) st.cs = false ∧
    st2 = { st with
        cs := st.cs ++ [(hdrPath l, [])]
        fname := some (hdrPath l)
        fpair := some (hdrPath h1, hdrPath l)
        pending := none } := by
  unfold stepHeader at he
  split at he
  · split at he
    · exact absurd he (by simp)
    · injection he with he2
      exact ⟨by simp_all, he2.symm⟩
  · exact absurd he (by simp)

theorem stepContent_cases (ty : ChangeType) (l : Str) (st st2 : PState) (f : Str)
    (hf : st.fname = some f) (he : stepContent ty l st = some st2) :
    csMember f st.cs = true ∧ ∃ c1 c2,
      st2.cs = csAppend st.cs f ⟨ty, c1, c2, .text (trimR (l.drop 1))⟩ ∧
      st2.fname = st.fname ∧ st2.fpair = st.fpair ∧ st2.pending = st.pending ∧
      st.ctrs = some (c1, c2) ∧ st2.ctrs = some (ctrStep ty c1 c2) := by
  unfold stepContent at he
  rw [hf] at he
  cases hc : st.ctrs with
  | none => rw [hc] at he; exact absurd he (by simp)
  | some p =>
    obtain ⟨c1, c2⟩ := p
    rw [hc] at he
    simp only [] at he
    split at he
    · injection he with he2
      subst he2
      exact ⟨by assumption, c1, c2, rfl, hf.symm, rfl, rfl, rfl, rfl⟩
    · exact absurd he (by simp)

theorem stepHunk_cases (l : Str) (st st2 : PState) (f : Str) (a b : Str)
    (hf : st.fname = some f) (hp : st.fpair = some (a, b))
    (he : stepHunk l st = some st2) :
    csMember f st.cs = true ∧ ∃ l1 l2,
      st2.cs = csAppend st.cs f ⟨.NEW_CHUNK, l1, l2, .pair a b⟩ ∧
      st2.fname = st.fname ∧ st2.fpair = st.fpair ∧ st2.pending = st.pending ∧
      st2.ctrs = some (l1, l2) := by
  unfold stepHunk at he
  split at he
  · split at he
    · split at he
      · rw [hf, hp] at he
        simp only [] at he
        split at he
        · injection he with he2
          subst he2
          exact ⟨by assumption, _, _, rfl, hf.symm, hp.symm, rfl, rfl⟩
        · exact absurd he (by simp)
      · exact absurd he (by simp)
    · exact absurd he (by simp)
  · exact absurd he (by simp)

theorem goodRecs_snoc_chunk (rs : List ChangeInfo) (l1 l2 : Int) (a b : Str)
    (h : rs = [] ∨ (goodRecs rs = true ∧ endSeen false rs = true)) :
    goodRecs (rs ++ [⟨.NEW_CHUNK, l1, l2, .pair a b⟩]) = true ∧
    endSeen false (rs ++ [⟨.NEW_CHUNK, l1, l2, .pair a b⟩]) = true := by
  rcases h with rfl | ⟨h1, h2⟩
  · simp [goodRecs, firstKindOk, recsOk, recOkAt, advSeen, endSeen]
  · constructor
    · simp only [goodRecs, Bool.and_eq_true] at h1 ⊢
      refine ⟨?_, ?_⟩
      · cases rs with
        | nil => exact absurd h1.1 (by simp [firstKindOk])
        | cons r t => simpa [firstKindOk] using h1.1
      · rw [recsOk_append]
        simp [h1.2, recsOk, recOkAt]
    · rw [endSeen_append]
      simp [endSeen, advSeen]

theorem goodRecs_snoc_content (rs : List ChangeInfo) (ty : ChangeType)
    (hty : ty = .INSERTED ∨ ty = .DELETED ∨ ty = .CONTEXT)
    (c1 c2 : Int) (txt : Content)
    (h1 : goodRecs rs = true) (h2 : endSeen false rs = true) :
    goodRecs (rs ++ [⟨ty, c1, c2, txt⟩]) = true ∧
    endSeen false (rs ++ [⟨ty, c1, c2, txt⟩]) = true := by
  constructor
  · simp only [goodRecs, Bool.and_eq_true] at h1 ⊢
    refine ⟨?_, ?_⟩
    · cases rs with
      | nil => exact absurd h1.1 (by simp [firstKindOk])
      | cons r t => simpa [firstKindOk] using h1.1
    · rw [recsOk_append]
      rcases hty with rfl | rfl | rfl <;> simp [h1.2, h2, recsOk, recOkAt]
  · rw [endSeen_append]
    rcases hty with rfl | rfl | rfl <;> simpa [endSeen, advSeen] using h2

theorem goodCs_append (cs : ChangeSet) (f : Str) (rs : List ChangeInfo) :
    goodCs (cs ++ [(f, rs)]) = (goodCs cs && goodRecs rs) := by
  simp [goodCs, List.all_append]

theorem goodRecs_addedFileRecords (f d : Str) :
    goodRecs (addedFileRecords f d) = true := by
  have hins : ∀ l : List (Nat × Str),
      recsOk true (l.map (fun p =>
        ChangeInfo.mk .INSERTED 1 ((p.1 : Int) + 1) (.text p.2))) = true := by
    intro l
    induction l with
    | nil => rfl
    | cons x t ih => simp [recsOk, recOkAt, advSeen, ih]
  unfold addedFileRecords
  simp [goodRecs, firstKindOk, recsOk, recOkAt, advSeen, hins]

theorem goodCs_insertedEntireFile (fs : Fs) (f : Str) :
    ∀ (cs cs' : ChangeSet), goodCs cs = true →
      insertedEntireFile fs f cs = some cs' → goodCs cs' = true := by
  intro cs cs' h he
  unfold insertedEntireFile at he
  match hnode : fs f with
  | none => rw [hnode] at he; exact absurd he (by simp)
  | some (.file d) =>
    rw [hnode] at he
    by_cases hm : csMember f cs
    · simp [hm] at he
    · simp only [hm, Bool.false_eq_true, if_false, Option.some.injEq] at he
      rw [← he, goodCs_append, h, goodRecs_addedFileRecords]
      rfl
  | some (.dir entries) =>
    rw [hnode] at he
    clear hnode
    induction entries generalizing cs with
    | nil =>
      simp only [List.foldlM_nil, pure, Option.some.injEq] at he
      exact he ▸ h
    | cons e es ih =>
      simp only [List.foldlM_cons] at he
      by_cases hm : csMember e.1 cs
      · simp [hm] at he
      · simp only [hm, Bool.false_eq_true, if_false, Option.some_bind] at he
        exact ih _ (by rw [goodCs_append, h, goodRecs_addedFileRecords]; rfl) he

theorem stepOnlyIn_good (dir1 dir2 : Str) (fs : Fs) (l : Str) (st st2 : PState)
    (h : goodCs st.cs = true) (hp : st.pending = none)
    (he : stepOnlyIn dir1 dir2 fs l st = some st2) :
    goodCs st2.cs = true ∧ st2.pending = none := by
  unfold stepOnlyIn at he
  split at he
  · exact absurd he (by simp)
  · split at he
    · split at he
      · rename_i cs' hins
        injection he with he2
        rw [← he2]
        exact ⟨goodCs_insertedEntireFile fs _ st.cs cs' h hins, hp⟩
      · exact absurd he (by simp)
    · split at he
      · split at he
        · exact absurd he (by simp)
        · injection he with he2
          rw [← he2]
          refine ⟨?_, hp⟩
          rw [goodCs_append, h]
          simp [goodRecs, firstKindOk, recsOk, recOkAt]
      · exact absurd he (by simp)

theorem stepBinary_good (l : Str) (st st2 : PState)
    (h : goodCs st.cs = true) (hp : st.pending = none)
    (he : stepBinary l st = some st2) :
    goodCs st2.cs = true ∧ st2.pending = none := by
  unfold stepBinary at he
  split at he
  · split at he
    · exact absurd he (by simp)
    · injection he with he2
      rw [← he2]
      refine ⟨?_, hp⟩
      rw [goodCs_append, h]
      simp [goodRecs, firstKindOk, recsOk, recOkAt]
  · exact absurd he (by simp)

/-- The parser-state invariant inside a file section: no pending header,
the current identity is the section key with its header pair, the key is
fresh relative to the earlier entries `cs0`, and those entries are good. -/
def SecInv (f : Str) (cs0 : ChangeSet) (pr : Str × Str) (st : PState) : Prop :=
  st.pending = none ∧ st.fname = some f ∧ st.fpair = some pr ∧
  csMember f cs0 = false ∧ goodCs cs0 = true

theorem prun_contents (dir1 dir2 : Str) (fs : Fs) (cls : List Str) :
    ∀ (st st' : PState) (f : Str) (cs0 : ChangeSet) (pr : Str × Str)
      (rs : List ChangeInfo),
      cls.all contentWf = true →
      SecInv f cs0 pr st → st.cs = cs0 ++ [(f, rs)] →
      goodRecs rs = true → endSeen false rs = true →
      prun dir1 dir2 fs cls st = some st' →
      ∃ rs', SecInv f cs0 pr st' ∧ st'.cs = cs0 ++ [(f, rs')] ∧
        goodRecs rs' = true ∧ endSeen false rs' = true := by
  induction cls with
  | nil =>
    intro st st' f cs0 pr rs _ hinv hcs hg hsn he
    injection he with he2
    subst he2
    exact ⟨rs, hinv, hcs, hg, hsn⟩
  | cons l rest ih =>
    intro st st' f cs0 pr rs hwf hinv hcs hg hsn he
    obtain ⟨hwl, hwr⟩ : contentWf l = true ∧ rest.all contentWf = true := by
      simpa using hwf
    obtain ⟨hpend, hfn, hfp, hm0, hg0⟩ := hinv
    rw [prun_cons] at he
    have hdisj := hwl
    unfold contentWf at hdisj
    simp only [Bool.or_eq_true, Bool.and_eq_true, Bool.not_eq_true',
      decide_eq_true_eq] at hdisj
    rcases hdisj with ((hsp | ⟨hmn, hnh⟩) | hpl) | hnl
    · rw [pline_ctx dir1 dir2 fs l st hpend hsp] at he
      cases hsc : stepContent .CONTEXT l st with
      | none => rw [hsc] at he; exact absurd he (by simp)
      | some st2 =>
        rw [hsc] at he
        simp only [Option.some_bind] at he
        obtain ⟨hmem, c1, c2, hcs2, hfn2, hfp2, hpd2, hct1, hct2⟩ :=
          stepContent_cases _ _ _ _ f hfn hsc
        have hcs2' : st2.cs =
            cs0 ++ [(f, rs ++ [⟨.CONTEXT, c1, c2, .text (trimR (l.drop 1))⟩])] := by
          rw [hcs2, hcs, csAppend_last _ _ _ _ hm0]
        obtain ⟨hg2, hsn2⟩ := goodRecs_snoc_content rs .CONTEXT
          (Or.inr (Or.inr rfl)) c1 c2 _ hg hsn
        exact ih st2 st' f cs0 pr _ hwr
          ⟨hpd2.trans hpend, hfn2.trans hfn, hfp2.trans hfp, hm0, hg0⟩ hcs2' hg2 hsn2 he
    · rw [pline_del dir1 dir2 fs l st hpend hmn hnh] at he
      cases hsc : stepContent .DELETED l st with
      | none => rw [hsc] at he; exact absurd he (by simp)
      | some st2 =>
        rw [hsc] at he
        simp only [Option.some_bind] at he
        obtain ⟨hmem, c1, c2, hcs2, hfn2, hfp2, hpd2, hct1, hct2⟩ :=
          stepContent_cases _ _ _ _ f hfn hsc
        have hcs2' : st2.cs =
            cs0 ++ [(f, rs ++ [⟨.DELETED, c1, c2, .text (trimR (l.drop 1))⟩])] := by
          rw [hcs2, hcs, csAppend_last _ _ _ _ hm0]
        obtain ⟨hg2, hsn2⟩ := goodRecs_snoc_content rs .DELETED
          (Or.inr (Or.inl rfl)) c1 c2 _ hg hsn
        exact ih st2 st' f cs0 pr _ hwr
          ⟨hpd2.trans hpend, hfn2.trans hfn, hfp2.trans hfp, hm0, hg0⟩ hcs2' hg2 hsn2 he
    · rw [pline_ins dir1 dir2 fs l st hpend hpl] at he
      cases hsc : stepContent .INSERTED l st with
      | none => rw [hsc] at he; exact absurd he (by simp)
      | some st2 =>
        rw [hsc] at he
        simp only [Option.some_bind] at he
        obtain ⟨hmem, c1, c2, hcs2, hfn2, hfp2, hpd2, hct1, hct2⟩ :=
          stepContent_cases _ _ _ _ f hfn hsc
        have hcs2' : st2.cs =
            cs0 ++ [(f, rs ++ [⟨.INSERTED, c1, c2, .text (trimR (l.drop 1))⟩])] := by
          rw [hcs2, hcs, csAppend_last _ _ _ _ hm0]
        obtain ⟨hg2, hsn2⟩ := goodRecs_snoc_content rs .INSERTED
          (Or.inl rfl) c1 c2 _ hg hsn
        exact ih st2 st' f cs0 pr _ hwr
          ⟨hpd2.trans hpend, hfn2.trans hfn, hfp2.trans hfp, hm0, hg0⟩ hcs2' hg2 hsn2 he
    · subst hnl
      rw [pline_nonl dir1 dir2 fs st hpend] at he
      simp only [Option.some_bind] at he
      exact ih st st' f cs0 pr rs hwr ⟨hpend, hfn, hfp, hm0, hg0⟩ hcs hg hsn he

theorem prun_hunks (dir1 dir2 : Str) (fs : Fs) (hunks : List (Str × List Str)) :
    ∀ (st st' : PState) (f : Str) (cs0 : ChangeSet) (pr : Str × Str)
      (rs : List ChangeInfo),
      hunks.all hunkWf = true →
      SecInv f cs0 pr st → st.cs = cs0 ++ [(f, rs)] →
      (rs = [] ∨ (goodRecs rs = true ∧ endSeen false rs = true)) →
      prun dir1 dir2 fs (hunks.flatMap (fun h => h.1 :: h.2)) st = some st' →
      ∃ rs', SecInv f cs0 pr st' ∧ st'.cs = cs0 ++ [(f, rs')] ∧
        ((rs' = rs ∧ hunks = []) ∨
          (goodRecs rs' = true ∧ endSeen false rs' = true)) := by
  induction hunks with
  | nil =>
    intro st st' f cs0 pr rs _ hinv hcs hd he
    injection he with he2
    subst he2
    exact ⟨rs, hinv, hcs, Or.inl ⟨rfl, rfl⟩⟩
  | cons h hs ih =>
    intro st st' f cs0 pr rs hwf hinv hcs hd he
    obtain ⟨hwh, hwhs⟩ : hunkWf h = true ∧ hs.all hunkWf = true := by simpa using hwf
    obtain ⟨hat, hcw⟩ : sw "@@ ".toList h.1 = true ∧ h.2.all contentWf = true := by
      simpa [hunkWf] using hwh
    obtain ⟨hpend, hfn, hfp, hm0, hg0⟩ := hinv
    have hfl : (h :: hs).flatMap (fun h => h.1 :: h.2) =
        h.1 :: (h.2 ++ hs.flatMap (fun h => h.1 :: h.2)) := by simp
    rw [hfl, prun_cons, pline_hunk dir1 dir2 fs h.1 st hpend hat] at he
    cases hsk : stepHunk h.1 st with
    | none => rw [hsk] at he; exact absurd he (by simp)
    | some st2 =>
      rw [hsk] at he
      simp only [Option.some_bind] at he
      obtain ⟨hmem, l1, l2, hcs2, hfn2, hfp2, hpd2, hct2⟩ :=
        stepHunk_cases h.1 st st2 f pr.1 pr.2 hfn (by rw [hfp]) hsk
      have hcs2' : st2.cs =
          cs0 ++ [(f, rs ++ [⟨.NEW_CHUNK, l1, l2, .pair pr.1 pr.2⟩])] := by
        rw [hcs2, hcs, csAppend_last _ _ _ _ hm0]
      obtain ⟨hg2, hsn2⟩ := goodRecs_snoc_chunk rs l1 l2 pr.1 pr.2 hd
      rw [prun_append] at he
      cases hc3 : prun dir1 dir2 fs h.2 st2 with
      | none => rw [hc3] at he; exact absurd he (by simp)
      | some st3 =>
        rw [hc3] at he
        simp only [Option.some_bind] at he
        obtain ⟨rs3, hinv3, hcs3, hg3, hsn3⟩ := prun_contents dir1 dir2 fs h.2
          st2 st3 f cs0 pr _ hcw
          ⟨hpd2.trans hpend, hfn2.trans hfn, hfp2.trans hfp, hm0, hg0⟩
          hcs2' hg2 hsn2 hc3
        obtain ⟨rs', hinv', hcs', hend⟩ := ih st3 st' f cs0 pr rs3 hwhs hinv3 hcs3
          (Or.inr ⟨hg3, hsn3⟩) he
        refine ⟨rs', hinv', hcs', Or.inr ?_⟩
        rcases hend with ⟨rfl, _⟩ | hgood
        · exact ⟨hg3, hsn3⟩
        · exact hgood

theorem prun_item (dir1 dir2 : Str) (fs : Fs) (it : DiffItem)
    (hwf : itemWf it = true) (st st' : PState)
    (hpend : st.pending = none) (hcs : goodCs st.cs = true)
    (he : prun dir1 dir2 fs (flattenItem it) st = some st') :
    st'.pending = none ∧ goodCs st'.cs = true := by
  cases it with
  | sep r =>
    simp only [flattenItem, prun_cons, pline_diff dir1 dir2 fs r st hpend,
      Option.some_bind, prun] at he
    injection he with he2
    subst he2
    exact ⟨hpend, hcs⟩
  | onlyIn l =>
    have hl : sw "Only in ".toList l = true := by simpa [itemWf] using hwf
    simp only [flattenItem, prun_cons,
      pline_onlyIn dir1 dir2 fs l st hpend hl] at he
    cases hso : stepOnlyIn dir1 dir2 fs l st with
    | none => rw [hso] at he; exact absurd he (by simp)
    | some st2 =>
      rw [hso] at he
      simp only [Option.some_bind, prun] at he
      injection he with he2
      subst he2
      obtain ⟨hg, hpd⟩ := stepOnlyIn_good dir1 dir2 fs l st st2 hcs hpend hso
      exact ⟨hpd, hg⟩
  | binary l =>
    obtain ⟨hb, hbe⟩ : sw "Binary files ".toList l = true ∧
        ew " differ".toList l = true := by simpa [itemWf] using hwf
    simp only [flattenItem, prun_cons,
      pline_binary dir1 dir2 fs l st hpend hb hbe] at he
    cases hso : stepBinary l st with
    | none => rw [hso] at he; exact absurd he (by simp)
    | some st2 =>
      rw [hso] at he
      simp only [Option.some_bind, prun] at he
      injection he with he2
      subst he2
      obtain ⟨hg, hpd⟩ := stepBinary_good l st st2 hcs hpend hso
      exact ⟨hpd, hg⟩
  | sec h1 h2 hunks =>
    obtain ⟨⟨hh1, hne⟩, hall⟩ : (sw "---".toList h1 = true ∧ ¬(hunks = [])) ∧
        hunks.all hunkWf = true := by
      simpa [itemWf, Bool.not_eq_true', decide_eq_false_iff_not] using hwf
    simp only [flattenItem] at he
    rw [prun_cons, pline_hdr1 dir1 dir2 fs h1 st hpend hh1] at he
    simp only [Option.some_bind] at he
    rw [prun_cons, pline_pending dir1 dir2 fs h2 _ h1 rfl] at he
    cases hsh : stepHeader h1 h2 { st with pending := some h1 } with
    | none => rw [hsh] at he; exact absurd he (by simp)
    | some st2 =>
      rw [hsh] at he
      simp only [Option.some_bind] at he
      obtain ⟨hm, hst2⟩ := stepHeader_cases h1 h2 _ st2 hsh
      subst hst2
      obtain ⟨rs', hinv', hcs', hend⟩ := prun_hunks dir1 dir2 fs hunks _ st'
        (hdrPath h2) st.cs (hdrPath h1, hdrPath h2) [] hall
        ⟨rfl, rfl, rfl, hm, hcs⟩ rfl (Or.inl rfl) he
      rcases hend with ⟨_, h0⟩ | ⟨hg', _⟩
      · exact absurd h0 hne
      · obtain ⟨hpend', _, _, _, _⟩ := hinv'
        refine ⟨hpend', ?_⟩
        rw [hcs', goodCs_append, hg']
        simp [hcs]

theorem prun_items (dir1 dir2 : Str) (fs : Fs) (items : List DiffItem) :
    ∀ (st st' : PState), items.all itemWf = true →
      st.pending = none → goodCs st.cs = true →
      prun dir1 dir2 fs (items.flatMap flattenItem) st = some st' →
      st'.pending = none ∧ goodCs st'.cs = true := by
  induction items with
  | nil =>
    intro st st' _ hp hg he
    injection he with he2
    subst he2
    exact ⟨hp, hg⟩
  | cons it its ih =>
    intro st st' hwf hp hg he
    obtain ⟨hw1, hw2⟩ : itemWf it = true ∧ its.all itemWf = true := by simpa using hwf
    rw [List.flatMap_cons, prun_append] at he
    cases h1 : prun dir1 dir2 fs (flattenItem it) st with
    | none => rw [h1] at he; exact absurd he (by simp)
    | some st2 =>
      rw [h1] at he
      simp only [Option.some_bind] at he
      obtain ⟨hp2, hg2⟩ := prun_item dir1 dir2 fs it hw1 st st2 hp hg h1
      exact ih st2 st' hw2 hp2 hg2 he

/-- A file system with one inserted file `d2/f` holding the text `x`. -/
def c1Fs : Fs := fun p => if p = "d2/f".toList then some (.file "x".toList) else none

/-- An accepted input on which the claimed record discipline fails three
ways: file `d2/y` gets a first record `Context` stamped from the stale line
counters of the previous file, file `d2/f` is an added file whose `Inserted`
records follow an `AddedFile` marker with no `NewChunk`, and file `d2/z`
ends with an empty record list. -/
def c1BadLines : List Str :=
  ["--- d1/x".toList, "+++ d2/x".toList, "@@ -1 +1 @@".toList, " a".toList,
   "--- d1/y".toList, "+++ d2/y".toList, " b".toList,
   "Only in d2: f".toList,
   "--- d1/z".toList, "+++ d2/z".toList]

/-- Counterexample to C1 as stated: the parser accepts `c1BadLines` and the
resulting changeset violates the claimed discipline (non-empty, marker or
chunk first, content only after a `NewChunk`). -/
theorem c1_record_structure_counterexample :
    (parseLines "d1".toList "d2".toList c1Fs c1BadLines).map goodCsStrict =
      some false := by decide

/-- C1 (amended): on an input that is the flattening of well-formed diff
items (file sections made of a `---`/`+++` header pair followed by at least
one `@@` hunk with properly prefixed content lines, `Only in` lines,
`Binary files … differ` lines and `diff` separators), any changeset the
parser returns satisfies the record discipline: every file has a non-empty
record list whose first record is `NewChunk`, `AddedFile`, `RemovedFile` or
`DifferingBinary`, and every `Inserted`/`Deleted`/`Context` record is
preceded within its file by a `NewChunk` or an `AddedFile` (the `AddedFile`
case, absent from the original claim, arises from whole-file inserts, whose
content records follow the `AddedFile` marker without any `NewChunk`). -/
theorem c1_record_structure (dir1 dir2 : Str) (fs : Fs) (items : List DiffItem)
    (hwf : items.all itemWf = true) (cs : ChangeSet)
    (hp : parseLines dir1 dir2 fs (items.flatMap flattenItem) = some cs) :
    goodCs cs = true := by
  unfold parseLines at hp
  rw [pgo_prun] at hp
  cases hr : prun dir1 dir2 fs (items.flatMap flattenItem) initPState with
  | none => rw [hr] at hp; exact absurd hp (by simp)
  | some stf =>
    rw [hr] at hp
    simp only [Option.some_bind] at hp
    obtain ⟨hpend, hgood⟩ := prun_items dir1 dir2 fs items initPState stf hwf rfl rfl hr
    unfold pdone at hp
    rw [hpend] at hp
    injection hp with hp2
    exact hp2 ▸ hgood

/-- A well-formed three-item input: one section with one hunk, one added
file, one binary-difference line. -/
def c1Items : List DiffItem :=
  [DiffItem.sec "--- d1/x".toList "+++ d2/x".toList
     [("@@ -3 +4 @@".toList, [" a".toList, "-b".toList, "+c".toList])],
   DiffItem.onlyIn "Only in d2: f".toList,
   DiffItem.binary "Binary files d1/b and d2/b differ".toList]

/-- The changeset parsed from `c1Items`. -/
def c1OutGood : ChangeSet :=
  [("d2/x".toList,
    [⟨.NEW_CHUNK, 3, 4, .pair "d1/x".toList "d2/x".toList⟩,
     ⟨.CONTEXT, 3, 4, .text "a".toList⟩,
     ⟨.DELETED, 4, 5, .text "b".toList⟩,
     ⟨.INSERTED, 5, 5, .text "c".toList⟩]),
   ("d2/f".toList,
    [⟨.ADDED_FILE, 1, 1, .text "d2/f".toList⟩,
     ⟨.INSERTED, 1, 1, .text "x".toList⟩]),
   ("d1/b".toList,
    [⟨.DIFFERING_BINARY, 0, 0, .text "d1/b".toList⟩])]

theorem c1_record_structure_witness :
    c1Items.all itemWf = true ∧ goodCs c1OutGood = true :=
  ⟨by decide, c1_record_structure "d1".toList "d2".toList c1Fs c1Items (by decide)
     c1OutGood (by decide)⟩

/-! ### Claim C7: the running line counters within a hunk -/

/-- The check the claim makes of one record given the expected counters:
`Context` carries both counters, `Deleted` the first, `Inserted` the
second; other records and records outside a hunk are unconstrained. -/
def ctrCheck (ctrs : Option (Int × Int)) (r : ChangeInfo) : Bool :=
  match r.type, ctrs with
  | .CONTEXT, some (c1, c2) => decide (r.line1 = c1 ∧ r.line2 = c2)
  | .DELETED, some (c1, _) => decide (r.line1 = c1)
  | .INSERTED, some (_, c2) => decide (r.line2 = c2)
  | _, _ => true

/-- How the expected counters advance: a `NewChunk` restarts them at its
header values, content records advance them as in the source, markers leave
hunk scope. -/
def ctrNext (ctrs : Option (Int × Int)) (r : ChangeInfo) : Option (Int × Int) :=
  match r.type with
  | .NEW_CHUNK => some (r.line1, r.line2)
  | .CONTEXT => ctrs.map (fun c => (c.1 + 1, c.2 + 1))
  | .DELETED => ctrs.map (fun c => (c.1 + 1, c.2))
  | .INSERTED => ctrs.map (fun c => (c.1, c.2 + 1))
  | _ => none

def ctrsOkFrom : Option (Int × Int) → List ChangeInfo → Bool
  | _, [] => true
  | c, r :: rest => ctrCheck c r && ctrsOkFrom (ctrNext c r) rest

/-- Within every hunk of the record list, `line1` of successive
`Context`/`Deleted` records and `line2` of successive `Context`/`Inserted`
records advance by exactly one from the hunk header values. -/
def hunksCtrsOk (rs : List ChangeInfo) : Bool := ctrsOkFrom none rs

def csCtrsOk (cs : ChangeSet) : Bool := cs.all (fun p => hunksCtrsOk p.2)

def ctrAfter (c : Option (Int × Int)) (l : List ChangeInfo) : Option (Int × Int) :=
  l.foldl ctrNext c

theorem ctrsOkFrom_append (x y : List ChangeInfo) : ∀ c : Option (Int × Int),
    ctrsOkFrom c (x ++ y) = (ctrsOkFrom c x && ctrsOkFrom (ctrAfter c x) y) := by
  induction x with
  | nil => intro c; simp [ctrsOkFrom, ctrAfter]
  | cons r t ih =>
    intro c
    simp [ctrsOkFrom, ctrAfter, List.foldl_cons, ih, Bool.and_assoc]

theorem ctrs_snoc_chunk (rs : List ChangeInfo) (l1 l2 : Int) (a b : Str)
    (h : hunksCtrsOk rs = true) :
    hunksCtrsOk (rs ++ [⟨.NEW_CHUNK, l1, l2, .pair a b⟩]) = true ∧
    ctrAfter none (rs ++ [⟨.NEW_CHUNK, l1, l2, .pair a b⟩]) = some (l1, l2) := by
  constructor
  · unfold hunksCtrsOk at h ⊢
    rw [ctrsOkFrom_append]
    simp [h, ctrsOkFrom, ctrCheck]
  · unfold ctrAfter
    rw [List.foldl_append]
    simp [ctrNext]

theorem ctrs_snoc_content (rs : List ChangeInfo) (ty : ChangeType)
    (hty : ty = .INSERTED ∨ ty = .DELETED ∨ ty = .CONTEXT)
    (c1 c2 : Int) (txt : Content)
    (h : hunksCtrsOk rs = true) (ha : ctrAfter none rs = some (c1, c2)) :
    hunksCtrsOk (rs ++ [⟨ty, c1, c2, txt⟩]) = true ∧
    ctrAfter none (rs ++ [⟨ty, c1, c2, txt⟩]) = some (ctrStep ty c1 c2) := by
  unfold ctrAfter at ha
  constructor
  · unfold hunksCtrsOk at h ⊢
    rw [ctrsOkFrom_append]
    unfold ctrAfter
    rw [ha]
    rcases hty with rfl | rfl | rfl <;> simp [h, ctrsOkFrom, ctrCheck]
  · unfold ctrAfter
    rw [List.foldl_append, ha]
    rcases hty with rfl | rfl | rfl <;> simp [ctrNext, ctrStep]

theorem csCtrsOk_append (cs : ChangeSet) (f : Str) (rs : List ChangeInfo) :
    csCtrsOk (cs ++ [(f, rs)]) = (csCtrsOk cs && hunksCtrsOk rs) := by
  simp [csCtrsOk, List.all_append]

theorem hunksCtrsOk_addedFileRecords (f d : Str) :
    hunksCtrsOk (addedFileRecords f d) = true := by
  have hins : ∀ l : List (Nat × Str),
      ctrsOkFrom none (l.map (fun p =>
        ChangeInfo.mk .INSERTED 1 ((p.1 : Int) + 1) (.text p.2))) = true := by
    intro l
    induction l with
    | nil => rfl
    | cons x t ih => simp [ctrsOkFrom, ctrCheck, ctrNext, ih]
  unfold addedFileRecords hunksCtrsOk
  simp [ctrsOkFrom, ctrCheck, ctrNext, hins]

theorem csCtrsOk_insertedEntireFile (fs : Fs) (f : Str) :
    ∀ (cs cs' : ChangeSet), csCtrsOk cs = true →
      insertedEntireFile fs f cs = some cs' → csCtrsOk cs' = true := by
  intro cs cs' h he
  unfold insertedEntireFile at he
  match hnode : fs f with
  | none => rw [hnode] at he; exact absurd he (by simp)
  | some (.file d) =>
    rw [hnode] at he
    by_cases hm : csMember f cs
    · simp [hm] at he
    · simp only [hm, Bool.false_eq_true, if_false, Option.some.injEq] at he
      rw [← he, csCtrsOk_append, h, hunksCtrsOk_addedFileRecords]
      rfl
  | some (.dir entries) =>
    rw [hnode] at he
    clear hnode
    induction entries generalizing cs with
    | nil =>
      simp only [List.foldlM_nil, pure, Option.some.injEq] at he
      exact he ▸ h
    | cons e es ih =>
      simp only [List.foldlM_cons] at he
      by_cases hm : csMember e.1 cs
      · simp [hm] at he
      · simp only [hm, Bool.false_eq_true, if_false, Option.some_bind] at he
        exact ih _ (by rw [csCtrsOk_append, h, hunksCtrsOk_addedFileRecords]; rfl) he

theorem stepOnlyIn_ctrs (dir1 dir2 : Str) (fs : Fs) (l : Str) (st st2 : PState)
    (h : csCtrsOk st.cs = true) (hp : st.pending = none)
    (he : stepOnlyIn dir1 dir2 fs l st = some st2) :
    csCtrsOk st2.cs = true ∧ st2.pending = none := by
  unfold stepOnlyIn at he
  split at he
  · exact absurd he (by simp)
  · split at he
    · split at he
      · rename_i cs' hins
        injection he with he2
        rw [← he2]
        exact ⟨csCtrsOk_insertedEntireFile fs _ st.cs cs' h hins, hp⟩
      · exact absurd he (by simp)
    · split at he
      · split at he
        · exact absurd he (by simp)
        · injection he with he2
          rw [← he2]
          refine ⟨?_, hp⟩
          rw [csCtrsOk_append, h]
          simp [hunksCtrsOk, ctrsOkFrom, ctrCheck]
      · exact absurd he (by simp)

theorem stepBinary_ctrs (l : Str) (st st2 : PState)
    (h : csCtrsOk st.cs = true) (hp : st.pending = none)
    (he : stepBinary l st = some st2) :
    csCtrsOk st2.cs = true ∧ st2.pending = none := by
  unfold stepBinary at he
  split at he
  · split at he
    · exact absurd he (by simp)
    · injection he with he2
      rw [← he2]
      refine ⟨?_, hp⟩
      rw [csCtrsOk_append, h]
      simp [hunksCtrsOk, ctrsOkFrom, ctrCheck]
  · exact absurd he (by simp)

/-- The section invariant for the counter discipline. -/
def SecInvC (f : Str) (cs0 : ChangeSet) (pr : Str × Str) (st : PState) : Prop :=
  st.pending = none ∧ st.fname = some f ∧ st.fpair = some pr ∧
  csMember f cs0 = false ∧ csCtrsOk cs0 = true

theorem prun_contents_ctrs (dir1 dir2 : Str) (fs : Fs) (cls : List Str) :
    ∀ (st st' : PState) (f : Str) (cs0 : ChangeSet) (pr : Str × Str)
      (rs : List ChangeInfo) (cc : Int × Int),
      cls.all contentWf = true →
      SecInvC f cs0 pr st → st.cs = cs0 ++ [(f, rs)] →
      hunksCtrsOk rs = true → ctrAfter none rs = some cc → st.ctrs = some cc →
      prun dir1 dir2 fs cls st = some st' →
      ∃ rs' cc', SecInvC f cs0 pr st' ∧ st'.cs = cs0 ++ [(f, rs')] ∧
        hunksCtrsOk rs' = true ∧ ctrAfter none rs' = some cc' ∧
        st'.ctrs = some cc' := by
  induction cls with
  | nil =>
    intro st st' f cs0 pr rs cc _ hinv hcs hg ha hct he
    injection he with he2
    subst he2
    exact ⟨rs, cc, hinv, hcs, hg, ha, hct⟩
  | cons l rest ih =>
    intro st st' f cs0 pr rs cc hwf hinv hcs hg ha hct he
    obtain ⟨hwl, hwr⟩ : contentWf l = true ∧ rest.all contentWf = true := by
      simpa using hwf
    obtain ⟨hpend, hfn, hfp, hm0, hg0⟩ := hinv
    rw [prun_cons] at he
    have hdisj := hwl
    unfold contentWf at hdisj
    simp only [Bool.or_eq_true, Bool.and_eq_true, Bool.not_eq_true',
      decide_eq_true_eq] at hdisj
    rcases hdisj with ((hsp | ⟨hmn, hnh⟩) | hpl) | hnl
    · rw [pline_ctx dir1 dir2 fs l st hpend hsp] at he
      cases hsc : stepContent .CONTEXT l st with
      | none => rw [hsc] at he; exact absurd he (by simp)
      | some st2 =>
        rw [hsc] at he
        simp only [Option.some_bind] at he
        obtain ⟨hmem, c1, c2, hcs2, hfn2, hfp2, hpd2, hct1, hct2⟩ :=
          stepContent_cases _ _ _ _ f hfn hsc
        have hcc : cc = (c1, c2) := by
          have := hct.symm.trans hct1
          injection this
        subst hcc
        have hcs2' : st2.cs =
            cs0 ++ [(f, rs ++ [⟨.CONTEXT, c1, c2, .text (trimR (l.drop 1))⟩])] := by
          rw [hcs2, hcs, csAppend_last _ _ _ _ hm0]
        obtain ⟨hg2, ha2⟩ := ctrs_snoc_content rs .CONTEXT (Or.inr (Or.inr rfl))
          c1 c2 _ hg ha
        exact ih st2 st' f cs0 pr _ _ hwr
          ⟨hpd2.trans hpend, hfn2.trans hfn, hfp2.trans hfp, hm0, hg0⟩
          hcs2' hg2 ha2 hct2 he
    · rw [pline_del dir1 dir2 fs l st hpend hmn hnh] at he
      cases hsc : stepContent .DELETED l st with
      | none => rw [hsc] at he; exact absurd he (by simp)
      | some st2 =>
        rw [hsc] at he
        simp only [Option.some_bind] at he
        obtain ⟨hmem, c1, c2, hcs2, hfn2, hfp2, hpd2, hct1, hct2⟩ :=
          stepContent_cases _ _ _ _ f hfn hsc
        have hcc : cc = (c1, c2) := by
          have := hct.symm.trans hct1
          injection this
        subst hcc
        have hcs2' : st2.cs =
            cs0 ++ [(f, rs ++ [⟨.DELETED, c1, c2, .text (trimR (l.drop 1))⟩])] := by
          rw [hcs2, hcs, csAppend_last _ _ _ _ hm0]
        obtain ⟨hg2, ha2⟩ := ctrs_snoc_content rs .DELETED (Or.inr (Or.inl rfl))
          c1 c2 _ hg ha
        exact ih st2 st' f cs0 pr _ _ hwr
          ⟨hpd2.trans hpend, hfn2.trans hfn, hfp2.trans hfp, hm0, hg0⟩
          hcs2' hg2 ha2 hct2 he
    · rw [pline_ins dir1 dir2 fs l st hpend hpl] at he
      cases hsc : stepContent .INSERTED l st with
      | none => rw [hsc] at he; exact absurd he (by simp)
      | some st2 =>
        rw [hsc] at he
        simp only [Option.some_bind] at he
        obtain ⟨hmem, c1, c2, hcs2, hfn2, hfp2, hpd2, hct1, hct2⟩ :=
          stepContent_cases _ _ _ _ f hfn hsc
        have hcc : cc = (c1, c2) := by
          have := hct.symm.trans hct1
          injection this
        subst hcc
        have hcs2' : st2.cs =
            cs0 ++ [(f, rs ++ [⟨.INSERTED, c1, c2, .text (trimR (l.drop 1))⟩])] := by
          rw [hcs2, hcs, csAppend_last _ _ _ _ hm0]
        obtain ⟨hg2, ha2⟩ := ctrs_snoc_content rs .INSERTED (Or.inl rfl)
          c1 c2 _ hg ha
        exact ih st2 st' f cs0 pr _ _ hwr
          ⟨hpd2.trans hpend, hfn2.trans hfn, hfp2.trans hfp, hm0, hg0⟩
          hcs2' hg2 ha2 hct2 he
    · subst hnl
      rw [pline_nonl dir1 dir2 fs st hpend] at he
      simp only [Option.some_bind] at he
      exact ih st st' f cs0 pr rs cc hwr ⟨hpend, hfn, hfp, hm0, hg0⟩ hcs hg ha hct he

theorem prun_hunks_ctrs (dir1 dir2 : Str) (fs : Fs) (hunks : List (Str × List Str)) :
    ∀ (st st' : PState) (f : Str) (cs0 : ChangeSet) (pr : Str × Str)
      (rs : List ChangeInfo),
      hunks.all hunkWf = true →
      SecInvC f cs0 pr st → st.cs = cs0 ++ [(f, rs)] →
      hunksCtrsOk rs = true →
      prun dir1 dir2 fs (hunks.flatMap (fun h => h.1 :: h.2)) st = some st' →
      ∃ rs', SecInvC f cs0 pr st' ∧ st'.cs = cs0 ++ [(f, rs')] ∧
        hunksCtrsOk rs' = true := by
  induction hunks with
  | nil =>
    intro st st' f cs0 pr rs _ hinv hcs hg he
    injection he with he2
    subst he2
    exact ⟨rs, hinv, hcs, hg⟩
  | cons h hs ih =>
    intro st st' f cs0 pr rs hwf hinv hcs hg he
    obtain ⟨hwh, hwhs⟩ : hunkWf h = true ∧ hs.all hunkWf = true := by simpa using hwf
    obtain ⟨hat, hcw⟩ : sw "@@ ".toList h.1 = true ∧ h.2.all contentWf = true := by
      simpa [hunkWf] using hwh
    obtain ⟨hpend, hfn, hfp, hm0, hg0⟩ := hinv
    have hfl : (h :: hs).flatMap (fun h => h.1 :: h.2) =
        h.1 :: (h.2 ++ hs.flatMap (fun h => h.1 :: h.2)) := by simp
    rw [hfl, prun_cons, pline_hunk dir1 dir2 fs h.1 st hpend hat] at he
    cases hsk : stepHunk h.1 st with
    | none => rw [hsk] at he; exact absurd he (by simp)
    | some st2 =>
      rw [hsk] at he
      simp only [Option.some_bind] at he
      obtain ⟨hmem, l1, l2, hcs2, hfn2, hfp2, hpd2, hct2⟩ :=
        stepHunk_cases h.1 st st2 f pr.1 pr.2 hfn (by rw [hfp]) hsk
      have hcs2' : st2.cs =
          cs0 ++ [(f, rs ++ [⟨.NEW_CHUNK, l1, l2, .pair pr.1 pr.2⟩])] := by
        rw [hcs2, hcs, csAppend_last _ _ _ _ hm0]
      obtain ⟨hg2, ha2⟩ := ctrs_snoc_chunk rs l1 l2 pr.1 pr.2 hg
      rw [prun_append] at he
      cases hc3 : prun dir1 dir2 fs h.2 st2 with
      | none => rw [hc3] at he; exact absurd he (by simp)
      | some st3 =>
        rw [hc3] at he
        simp only [Option.some_bind] at he
        obtain ⟨rs3, cc3, hinv3, hcs3, hg3, ha3, hct3⟩ := prun_contents_ctrs
          dir1 dir2 fs h.2 st2 st3 f cs0 pr _ (l1, l2) hcw
          ⟨hpd2.trans hpend, hfn2.trans hfn, hfp2.trans hfp, hm0, hg0⟩
          hcs2' hg2 ha2 hct2 hc3
        exact ih st3 st' f cs0 pr rs3 hwhs hinv3 hcs3 hg3 he

theorem prun_item_ctrs (dir1 dir2 : Str) (fs : Fs) (it : DiffItem)
    (hwf : itemWf it = true) (st st' : PState)
    (hpend : st.pending = none) (hcs : csCtrsOk st.cs = true)
    (he : prun dir1 dir2 fs (flattenItem it) st = some st') :
    st'.pending = none ∧ csCtrsOk st'.cs = true := by
  cases it with
  | sep r =>
    simp only [flattenItem, prun_cons, pline_diff dir1 dir2 fs r st hpend,
      Option.some_bind, prun] at he
    injection he with he2
    subst he2
    exact ⟨hpend, hcs⟩
  | onlyIn l =>
    have hl : sw "Only in ".toList l = true := by simpa [itemWf] using hwf
    simp only [flattenItem, prun_cons,
      pline_onlyIn dir1 dir2 fs l st hpend hl] at he
    cases hso : stepOnlyIn dir1 dir2 fs l st with
    | none => rw [hso] at he; exact absurd he (by simp)
    | some st2 =>
      rw [hso] at he
      simp only [Option.some_bind, prun] at he
      injection he with he2
      subst he2
      obtain ⟨hg, hpd⟩ := stepOnlyIn_ctrs dir1 dir2 fs l st st2 hcs hpend hso
      exact ⟨hpd, hg⟩
  | binary l =>
    obtain ⟨hb, hbe⟩ : sw "Binary files ".toList l = true ∧
        ew " differ".toList l = true := by simpa [itemWf] using hwf
    simp only [flattenItem, prun_cons,
      pline_binary dir1 dir2 fs l st hpend hb hbe] at he
    cases hso : stepBinary l st with
    | none => rw [hso] at he; exact absurd he (by simp)
    | some st2 =>
      rw [hso] at he
      simp only [Option.some_bind, prun] at he
      injection he with he2
      subst he2
      obtain ⟨hg, hpd⟩ := stepBinary_ctrs l st st2 hcs hpend hso
      exact ⟨hpd, hg⟩
  | sec h1 h2 hunks =>
    obtain ⟨⟨hh1, hne⟩, hall⟩ : (sw "---".toList h1 = true ∧ ¬(hunks = [])) ∧
        hunks.all hunkWf = true := by
      simpa [itemWf, Bool.not_eq_true', decide_eq_false_iff_not] using hwf
    simp only [flattenItem] at he
    rw [prun_cons, pline_hdr1 dir1 dir2 fs h1 st hpend hh1] at he
    simp only [Option.some_bind] at he
    rw [prun_cons, pline_pending dir1 dir2 fs h2 _ h1 rfl] at he
    cases hsh : stepHeader h1 h2 { st with pending := some h1 } with
    | none => rw [hsh] at he; exact absurd he (by simp)
    | some st2 =>
      rw [hsh] at he
      simp only [Option.some_bind] at he
      obtain ⟨hm, hst2⟩ := stepHeader_cases h1 h2 _ st2 hsh
      subst hst2
      obtain ⟨rs', hinv', hcs', hg'⟩ := prun_hunks_ctrs dir1 dir2 fs hunks _ st'
        (hdrPath h2) st.cs (hdrPath h1, hdrPath h2) [] hall
        ⟨rfl, rfl, rfl, hm, hcs⟩ rfl rfl he
      obtain ⟨hpend', _, _, _, _⟩ := hinv'
      refine ⟨hpend', ?_⟩
      rw [hcs', csCtrsOk_append, hg']
      simp [hcs]

theorem prun_items_ctrs (dir1 dir2 : Str) (fs : Fs) (items : List DiffItem) :
    ∀ (st st' : PState), items.all itemWf = true →
      st.pending = none → csCtrsOk st.cs = true →
      prun dir1 dir2 fs (items.flatMap flattenItem) st = some st' →
      st'.pending = none ∧ csCtrsOk st'.cs = true := by
  induction items with
  | nil =>
    intro st st' _ hp hg he
    injection he with he2
    subst he2
    exact ⟨hp, hg⟩
  | cons it its ih =>
    intro st st' hwf hp hg he
    obtain ⟨hw1, hw2⟩ : itemWf it = true ∧ its.all itemWf = true := by simpa using hwf
    rw [List.flatMap_cons, prun_append] at he
    cases h1 : prun dir1 dir2 fs (flattenItem it) st with
    | none => rw [h1] at he; exact absurd he (by simp)
    | some st2 =>
      rw [h1] at he
      simp only [Option.some_bind] at he
      obtain ⟨hp2, hg2⟩ := prun_item_ctrs dir1 dir2 fs it hw1 st st2 hp hg h1
      exact ih st2 st' hw2 hp2 hg2 he

/-- A file system holding one empty directory at `d2/x`, the key of the
first parsed file. -/
def c7Fs : Fs := fun p => if p = "d2/x".toList then some (.dir []) else none

/-- An accepted input on which the hunk counter discipline fails: the
`Only in` line names a directory whose path collides with the already
registered file `d2/x`, re-pointing the current identity at it, so the
final context line is appended to the first hunk of `d2/x` carrying the
running counters of the second file. -/
def c7Lines : List Str :=
  ["--- a/x".toList, "+++ d2/x".toList, "@@ -1 +1 @@".toList, " a".toList,
   "--- a/y".toList, "+++ d2/y".toList, "@@ -7 +9 @@".toList, " q".toList,
   "Only in d2: x".toList, " b".toList]

/-- Counterexample to C7 as stated: the parser accepts `c7Lines` and the
hunk opened by `@@ -1 +1 @@` of file `d2/x` holds Context records with
`line1` values 1 and then 8. -/
theorem c7_hunk_counters_counterexample :
    (parseLines "a".toList "d2".toList c7Fs c7Lines).map csCtrsOk =
      some false := by decide

/-- C7 (amended): on an input that is the flattening of well-formed diff
items, every changeset the parser returns satisfies the hunk counter
discipline: within each hunk, `line1` of successive `Context`/`Deleted`
records and `line2` of successive `Context`/`Inserted` records advance by
exactly one starting from the hunk header values `L1`/`L2`.  On arbitrary
accepted inputs this fails, because an `Only in` line naming a directory
re-points the current file identity at an existing key without any
freshness check, and later content lines then join an old hunk carrying
another file's counters. -/
theorem c7_hunk_counters (dir1 dir2 : Str) (fs : Fs) (items : List DiffItem)
    (hwf : items.all itemWf = true) (cs : ChangeSet)
    (hp : parseLines dir1 dir2 fs (items.flatMap flattenItem) = some cs) :
    csCtrsOk cs = true := by
  unfold parseLines at hp
  rw [pgo_prun] at hp
  cases hr : prun dir1 dir2 fs (items.flatMap flattenItem) initPState with
  | none => rw [hr] at hp; exact absurd hp (by simp)
  | some stf =>
    rw [hr] at hp
    simp only [Option.some_bind] at hp
    obtain ⟨hpend, hgood⟩ := prun_items_ctrs dir1 dir2 fs items initPState stf
      hwf rfl rfl hr
    unfold pdone at hp
    rw [hpend] at hp
    injection hp with hp2
    exact hp2 ▸ hgood

theorem c7_hunk_counters_witness :
    c1Items.all itemWf = true ∧ csCtrsOk c1OutGood = true :=
  ⟨by decide, c7_hunk_counters "d1".toList "d2".toList c1Fs c1Items (by decide)
     c1OutGood (by decide)⟩

/-! ### Claim C8: the failure taxonomy of the parser -/

/-- A line matching one of the enumerated grammar forms of the claim. -/
def lineForm (l : Str) : Bool :=
  sw "diff ".toList l || sw "Only in ".toList l || sw "---".toList l ||
  sw "+++".toList l || sw "@@ ".toList l || sw " ".toList l || sw "-".toList l ||
  sw "+".toList l || decide (l = "\\ No newline at end of file".toList) ||
  (sw "Binary files ".toList l && ew " differ".toList l)

/-- The file identities a line would record, read off the line alone. -/
def lineIds (l : Str) : List Str :=
  if sw "+++".toList l then [hdrPath l]
  else if sw "Only in ".toList l then
    match onlyInMatch l with
    | some (g1, g2) => [pathJoin g1 g2]
    | none => []
  else if sw "Binary files ".toList l && ew " differ".toList l then
    match binGroup1 l with
    | some f => [f]
    | none => []
  else []

/-- The single-line input of the counterexample: a space-prefixed content
line with no preceding header or hunk. -/
def c8Lines : List Str := [" x".toList]

/-- Counterexample to C8 as stated: every line of `c8Lines` matches an
enumerated grammar form and no file identity is recorded twice, yet the
parser aborts (the content line arrives before any file identity or
counters exist). -/
theorem c8_parse_failure_counterexample :
    (∀ l ∈ c8Lines, lineForm l = true) ∧
    List.Nodup (c8Lines.flatMap lineIds) ∧
    parseLines "d1".toList "d2".toList emptyFs c8Lines = none := by decide

theorem pline_lineForm (dir1 dir2 : Str) (fs : Fs) (l : Str) (st st2 : PState)
    (he : pline dir1 dir2 fs l st = some st2) : lineForm l = true := by
  unfold pline at he
  split at he
  · unfold stepHeader at he
    split at he
    · simp_all [lineForm]
    · exact absurd he (by simp)
  · split_ifs at he with h1 h2 h3 h4 h5 h6 h7 h8 h9
    all_goals simp_all [lineForm]

theorem prun_lineForm (dir1 dir2 : Str) (fs : Fs) (ls : List Str) :
    ∀ st st2 : PState, prun dir1 dir2 fs ls st = some st2 →
      ∀ l ∈ ls, lineForm l = true := by
  induction ls with
  | nil => intro st st2 _ l hl; exact absurd hl (by simp)
  | cons x rest ih =>
    intro st st2 he l hl
    rw [prun_cons] at he
    cases hp : pline dir1 dir2 fs x st with
    | none => rw [hp] at he; exact absurd he (by simp)
    | some stm =>
      rw [hp] at he
      simp only [Option.some_bind] at he
      rcases List.mem_cons.1 hl with rfl | hl2
      · exact pline_lineForm dir1 dir2 fs l st stm hp
      · exact ih stm st2 he l hl2

theorem csKeys_append (cs : ChangeSet) (f : Str) (rs : List ChangeInfo) :
    csKeys (cs ++ [(f, rs)]) = csKeys cs ++ [f] := by
  simp [csKeys]

theorem csKeys_csAppend (cs : ChangeSet) (f : Str) (r : ChangeInfo) :
    csKeys (csAppend cs f r) = csKeys cs := by
  induction cs with
  | nil => rfl
  | cons p t ih =>
    simp only [csAppend, csKeys, List.map_cons] at ih ⊢
    split <;> simp_all

theorem nodup_snoc {ks : List Str} {f : Str} (h : ks.Nodup) (hm : f ∉ ks) :
    (ks ++ [f]).Nodup := by
  simp [List.nodup_append, h, hm]

theorem notmem_of_csMember_false {f : Str} {cs : ChangeSet}
    (h : csMember f cs = false) : f ∉ csKeys cs := by
  simpa [csMember] using h

theorem nodup_insertedEntireFile (fs : Fs) (f : Str) :
    ∀ (cs cs' : ChangeSet), (csKeys cs).Nodup →
      insertedEntireFile fs f cs = some cs' → (csKeys cs').Nodup := by
  intro cs cs' h he
  unfold insertedEntireFile at he
  match hnode : fs f with
  | none => rw [hnode] at he; exact absurd he (by simp)
  | some (.file d) =>
    rw [hnode] at he
    by_cases hm : csMember f cs
    · simp [hm] at he
    · simp only [hm, Bool.false_eq_true, if_false, Option.some.injEq] at he
      rw [← he, csKeys_append]
      exact nodup_snoc h (notmem_of_csMember_false (by simpa using hm))
  | some (.dir entries) =>
    rw [hnode] at he
    clear hnode
    induction entries generalizing cs with
    | nil =>
      simp only [List.foldlM_nil, pure, Option.some.injEq] at he
      exact he ▸ h
    | cons e es ih =>
      simp only [List.foldlM_cons] at he
      by_cases hm : csMember e.1 cs
      · simp [hm] at he
      · simp only [hm, Bool.false_eq_true, if_false, Option.some_bind] at he
        refine ih _ ?_ he
        rw [csKeys_append]
        exact nodup_snoc h (notmem_of_csMember_false (by simpa using hm))

theorem pline_nodup (dir1 dir2 : Str) (fs : Fs) (l : Str) (st st2 : PState)
    (h : (csKeys st.cs).Nodup) (he : pline dir1 dir2 fs l st = some st2) :
    (csKeys st2.cs).Nodup := by
  unfold pline at he
  split at he
  · unfold stepHeader at he
    split at he
    · split at he
      · exact absurd he (by simp)
      · injection he with he2
        rw [← he2]
        rename_i hm
        rw [csKeys_append]
        exact nodup_snoc h (notmem_of_csMember_false (by simpa using hm))
    · exact absurd he (by simp)
  · split_ifs at he with h1 h2 h3 h4 h5 h6 h7 h8 h9
    · injection he with he2; exact he2 ▸ h
    · unfold stepOnlyIn at he
      split at he
      · exact absurd he (by simp)
      · split at he
        · split at he
          · rename_i cs' hins
            injection he with he2
            rw [← he2]
            exact nodup_insertedEntireFile fs _ st.cs cs' h hins
          · exact absurd he (by simp)
        · split at he
          · split at he
            · exact absurd he (by simp)
            · injection he with he2
              rw [← he2]
              rename_i hm
              rw [csKeys_append]
              exact nodup_snoc h (notmem_of_csMember_false (by simpa using hm))
          · exact absurd he (by simp)
    · injection he with he2; exact he2 ▸ h
    · unfold stepHunk at he
      split at he
      · split at he
        · split at he
          · split at he
            · split at he
              · injection he with he2
                rw [← he2, csKeys_csAppend]
                exact h
              · exact absurd he (by simp)
            · exact absurd he (by simp)
          · exact absurd he (by simp)
        · exact absurd he (by simp)
      · exact absurd he (by simp)
    · unfold stepContent at he
      split at he
      · split at he
        · injection he with he2
          rw [← he2, csKeys_csAppend]
          exact h
        · exact absurd he (by simp)
      · exact absurd he (by simp)
    · unfold stepContent at he
      split at he
      · split at he
        · injection he with he2
          rw [← he2, csKeys_csAppend]
          exact h
        · exact absurd he (by simp)
      · exact absurd he (by simp)
    · unfold stepContent at he
      split at he
      · split at he
        · injection he with he2
          rw [← he2, csKeys_csAppend]
          exact h
        · exact absurd he (by simp)
      · exact absurd he (by simp)
    · injection he with he2; exact he2 ▸ h
    · unfold stepBinary at he
      split at he
      · split at he
        · exact absurd he (by simp)
        · injection he with he2
          rw [← he2]
          rename_i hm
          rw [csKeys_append]
          exact nodup_snoc h (notmem_of_csMember_false (by simpa using hm))
      · exact absurd he (by simp)

theorem prun_nodup (dir1 dir2 : Str) (fs : Fs) (ls : List Str) :
    ∀ st st2 : PState, (csKeys st.cs).Nodup →
      prun dir1 dir2 fs ls st = some st2 → (csKeys st2.cs).Nodup := by
  induction ls with
  | nil =>
    intro st st2 h he
    injection he with he2
    subst he2
    exact h
  | cons x rest ih =>
    intro st st2 h he
    rw [prun_cons] at he
    cases hp : pline dir1 dir2 fs x st with
    | none => rw [hp] at he; exact absurd he (by simp)
    | some stm =>
      rw [hp] at he
      simp only [Option.some_bind] at he
      exact ih stm st2 (pline_nodup dir1 dir2 fs x st stm h hp) he

/-- C8 (amended): the grammar-and-identity conditions of the claim are
necessary for success, not sufficient: whenever the parser completes and
returns a changeset, every input line matches one of the enumerated
grammar forms and no file identity has been recorded twice (the key list is
duplicate-free).  The converse of the claim is false: the set of fatal
conditions is strictly larger than unmatched lines and duplicate
identities (a content line before any hunk, a hunk header before any
header pair or with non-positive starts, an `Only in` path outside both
roots or missing from the file system, a `---` line not followed by a
`+++` line, and a dangling `---` at end of input all abort the run). -/
theorem c8_parse_failure (dir1 dir2 : Str) (fs : Fs) (ls : List Str)
    (cs : ChangeSet) (hp : parseLines dir1 dir2 fs ls = some cs) :
    (∀ l ∈ ls, lineForm l = true) ∧ (csKeys cs).Nodup := by
  unfold parseLines at hp
  rw [pgo_prun] at hp
  cases hr : prun dir1 dir2 fs ls initPState with
  | none => rw [hr] at hp; exact absurd hp (by simp)
  | some stf =>
    rw [hr] at hp
    simp only [Option.some_bind] at hp
    refine ⟨prun_lineForm dir1 dir2 fs ls initPState stf hr, ?_⟩
    have hnd := prun_nodup dir1 dir2 fs ls initPState stf (by decide) hr
    unfold pdone at hp
    split at hp
    · injection hp with hp2
      exact hp2 ▸ hnd
    · exact absurd hp (by simp)

theorem c8_parse_failure_witness :
    parseLines "d1".toList "d2".toList c1Fs (c1Items.flatMap flattenItem) =
      some c1OutGood ∧
    ((∀ l ∈ c1Items.flatMap flattenItem, lineForm l = true) ∧
      (csKeys c1OutGood).Nodup) :=
  ⟨by decide,
   c8_parse_failure "d1".toList "d2".toList c1Fs (c1Items.flatMap flattenItem)
     c1OutGood (by decide)⟩

end Diffcode
